import Mathlib

/-!
Market pairing and ribbon trend of bvv_moneymaker.

A shallow embedding of `internal/bvv_market.go` and `pkg/moving_average/main.go`.

* Go functions returning `(value, err)` become Lean functions returning both components
  (`err = none` is Go's `nil` error).
* Pointers to markets are addresses into an explicit heap; the registry `BvvMarkets`
  maps names to addresses.
* `github.com/shopspring/decimal` is an external library: a `Decimal` is a pair of a
  big-integer coefficient and a base-ten exponent, and its operations are written out
  below the way the library computes them.  Exponents are unbounded integers here; the
  library keeps them in an `int32` and panics when a product's exponent leaves that range.
* The moving averages (`EMA`), the ribbon handler constructor and the decimal parser are
  collaborators whose code is outside the two files; they are parameters of the model.
-/

set_option autoImplicit false

/-! ## Decimal arithmetic (shopspring/decimal) -/

/-- A decimal number `value * 10 ^ exp`; the Go zero value `Decimal{}` is `⟨0, 0⟩`. -/
structure Decimal where
  value : Int
  exp : Int
deriving DecidableEq, Repr, Inhabited

namespace Decimal

/-- The constant `decimal.Zero`, which is `New(0, 1)` in the library. -/
def Zero : Decimal := ⟨0, 1⟩

/-- The constructor `decimal.New(value, exp)`. -/
def New (value : Int) (exp : Int) : Decimal := ⟨value, exp⟩

/-- The constructor `decimal.NewFromInt(value)`: exponent zero. -/
def NewFromInt (value : Int) : Decimal := ⟨value, 0⟩

/-- The constructor `decimal.NewFromInt32(value)`: exponent zero. -/
def NewFromInt32 (value : Int) : Decimal := ⟨value, 0⟩

/-- The method `rescale`: the same number at another exponent; going to a larger exponent
truncates the coefficient toward zero (`big.Int.Quo`). -/
def rescale (d : Decimal) (exp : Int) : Decimal :=
  if d.exp = exp then d
  else
    let diff := (exp - d.exp).natAbs
    if exp > d.exp then ⟨d.value.tdiv (10 ^ diff), exp⟩
    else ⟨d.value * 10 ^ diff, exp⟩

/-- The function `RescalePair`: bring both operands to the smaller of the two exponents. -/
def RescalePair (d1 d2 : Decimal) : Decimal × Decimal :=
  if d1.exp < d2.exp then (d1, d2.rescale d1.exp)
  else if d1.exp > d2.exp then (d1.rescale d2.exp, d2)
  else (d1, d2)

/-- The result of `big.Int.Cmp`: `-1`, `0` or `1`. -/
def bigCmp (a b : Int) : Int :=
  if a < b then -1 else if a = b then 0 else 1

/-- The method `Cmp`: compare the coefficients after `RescalePair`. -/
def Cmp (d d2 : Decimal) : Int :=
  if d.exp = d2.exp then bigCmp d.value d2.value
  else
    let p := RescalePair d d2
    bigCmp p.1.value p.2.value

/-- The method `Equal`: `d.Cmp(d2) == 0`. -/
def Equal (d d2 : Decimal) : Bool := d.Cmp d2 == 0

/-- The method `LessThan`: `d.Cmp(d2) == -1`. -/
def LessThan (d d2 : Decimal) : Bool := d.Cmp d2 == -1

/-- The method `Abs`. -/
def Abs (d : Decimal) : Decimal := ⟨d.value.natAbs, d.exp⟩

/-- The method `Add`. -/
def Add (d d2 : Decimal) : Decimal :=
  let p := RescalePair d d2
  ⟨p.1.value + p.2.value, p.1.exp⟩

/-- The method `Sub`. -/
def Sub (d d2 : Decimal) : Decimal :=
  let p := RescalePair d d2
  ⟨p.1.value - p.2.value, p.1.exp⟩

/-- The method `Mul`: coefficients multiply, exponents add. -/
def Mul (d d2 : Decimal) : Decimal := ⟨d.value * d2.value, d.exp + d2.exp⟩

/-- The package variable `DivisionPrecision`: digits kept after the decimal point by `Div`. -/
def DivisionPrecision : Int := 16

/-- The method `QuoRem`: the quotient truncated to `precision` decimal places, and the
remainder.  The library panics when `d2` is zero; callers guard against that. -/
def QuoRem (d d2 : Decimal) (precision : Int) : Decimal × Decimal :=
  let scale := -precision
  let e := d.exp - d2.exp - scale
  if e < 0 then
    let aa := d.value
    let bb := d2.value * 10 ^ (-e).toNat
    (⟨aa.tdiv bb, scale⟩, ⟨aa.tmod bb, d.exp⟩)
  else
    let aa := d.value * 10 ^ e.toNat
    let bb := d2.value
    (⟨aa.tdiv bb, scale⟩, ⟨aa.tmod bb, scale + d2.exp⟩)

/-- The method `DivRound`: the quotient rounded half away from zero at `precision` places. -/
def DivRound (d d2 : Decimal) (precision : Int) : Decimal :=
  let qr := QuoRem d d2 precision
  let r2 : Decimal := ⟨2 * qr.2.value.natAbs, qr.2.exp + precision⟩
  let c := r2.Cmp d2.Abs
  if c < 0 then qr.1
  else if d.value.sign * d2.value.sign < 0 then qr.1.Sub (New 1 (-precision))
  else qr.1.Add (New 1 (-precision))

/-- The method `Div`: `DivRound` at `DivisionPrecision` places. -/
def Div (d d2 : Decimal) : Decimal := d.DivRound d2 DivisionPrecision

/-- The rational number a decimal denotes. -/
def toRat (d : Decimal) : ℚ := (d.value : ℚ) * (10 : ℚ) ^ d.exp

end Decimal

/-! ## Errors -/

/-- The error values of the package.  `external` carries an error handed back by a
collaborator (decimal parser, ribbon handler, moving average); the others are the
`fmt.Errorf` values of `bvv_market.go`, one constructor per message. -/
inductive Error where
  | external (msg : String)
  | MarketNotInConfigError (marketName : String)
  | availableNotDecimal (available : String) (cause : String)
  | inOrderNotDecimal (inOrder : String) (cause : String)
  | priceNotFound (marketName : String)
  | zeroPrice
  | noRibbonHandler
  | bandwidthNeedsRibbon
  | ribbonNotDefined (ema : Int)
  | trendNeedsRibbon
deriving DecidableEq, Repr

/-- The constructor `newMarketNotInConfigError`. -/
def newMarketNotInConfigError (marketName : String) : Error :=
  Error.MarketNotInConfigError marketName

/-! ## Moving averages -/

namespace moving_average

/-- The enumeration `Trend` of `pkg/moving_average/main.go`, in `iota` order. -/
inductive Trend where
  | BullTrend
  | BearTrend
  | IndecisiveTrend
  | UndefinedTrend
deriving DecidableEq, Repr, Inhabited

/-- The record `MABandwidth`. -/
structure MABandwidth where
  Min : Decimal
  Cur : Decimal
  Max : Decimal
deriving DecidableEq, Repr, Inhabited

end moving_average

open moving_average

/-- The methods of a ribbon member that `bvv_market.go` calls.  The type `EMA` and these
methods are declared outside the two source files; each is a parameter.  A Go result
`(values, err)` with a non-nil `err` is `Except.error`. -/
structure EMAMethods (EMA : Type) where
  Compare : EMA → EMA → Except String (Decimal × Trend)
  GetWithOffset : EMA → Except String Decimal
  GetBandwidth : EMA → Except String MABandwidth

/-- The ribbon handler as far as `bvv_market.go` reads it: the slice `emas`.
`none` is the nil slice, `some l` a non-nil slice with elements `l`. -/
structure RibbonHandler (EMA : Type) where
  emas : Option (List EMA)
deriving DecidableEq, Repr

/-- The elements of a slice; the nil slice has none. -/
def RibbonHandler.members {EMA : Type} (rh : RibbonHandler EMA) : List EMA :=
  rh.emas.getD []

/-! ## Configuration and markets -/

/-- Modelled from the spec: the ribbon part of a market's settings, `ribbonEnabled` and
`ribbonParams`; the declaration of the type and of its method `Enabled` is outside the
source files.  The parameters are carried along uninterpreted. -/
structure RibbonConfig where
  ribbonEnabled : Bool
  ribbonParams : List String
deriving DecidableEq, Repr, Inhabited

/-- Modelled from the spec: the method `Enabled` of the ribbon settings, the flag
`ribbonEnabled`. -/
def RibbonConfig.Enabled (c : RibbonConfig) : Bool := c.ribbonEnabled

/-- Modelled from the spec: the per-market settings `{minLevel, maxLevel, ribbonEnabled,
ribbonParams}`; the declaration of the type is outside the source files, the field names
are the ones `NewBvvMarket` reads. -/
structure bvvMarketConfig where
  MinLevel : String
  MaxLevel : String
  RibbonConfig : RibbonConfig
deriving DecidableEq, Repr, Inhabited

/-- The Go zero value of the settings. -/
def bvvMarketConfig.zero : bvvMarketConfig := ⟨"", "", ⟨false, []⟩⟩

/-- Modelled from the spec: the configuration as far as `NewBvvMarket` reads it, the
mapping `Markets` from symbol to settings (a Go map: `none` is an absent key). -/
structure bvvConfig where
  Markets : String → Option bvvMarketConfig

/-- The record `BvvMarket`.  `inverse` is a pointer: `none` is nil, `some a` the address
`a` of a market on the heap.  `handler` records whether the handler pointer is set (it
only ever points to the handler that built the market).  `rh` is the ribbon handler
pointer with its pointee inlined. -/
structure BvvMarket (EMA : Type) where
  From : String
  To : String
  handler : Bool
  config : bvvMarketConfig
  inverse : Option Nat
  Available : Decimal
  InOrder : Decimal
  Price : Decimal
  Min : Decimal
  Max : Decimal
  rh : Option (RibbonHandler EMA)
deriving DecidableEq, Repr

/-- The handler `BvvHandler` as far as `NewBvvMarket` uses it: the configuration, the price
table and the registry `markets` of type `BvvMarkets` (name to market pointer). -/
structure BvvHandler where
  config : bvvConfig
  prices : String → Option Decimal
  markets : String → Option Nat

/-- A Go map assignment `m[k] = v`. -/
def mapSet {α : Type} (m : String → Option α) (k : String) (v : α) : String → Option α :=
  fun x => if x = k then some v else m x

/-- The collaborators of `NewBvvMarket` whose code is outside the source files:
`decimal.NewFromString` and `NewRibbonHandler` (which receives the market being built and
the ribbon settings and returns a handler pointer, possibly nil, or an error). -/
structure Collaborators (EMA : Type) where
  NewFromString : String → Except String Decimal
  NewRibbonHandler : BvvMarket EMA → RibbonConfig → Except String (Option (RibbonHandler EMA))

namespace BvvMarket

variable {EMA : Type}

/-- The Go zero value `BvvMarket{}`. -/
def zero : BvvMarket EMA :=
  { From := "", To := "", handler := false, config := bvvMarketConfig.zero, inverse := none,
    Available := ⟨0, 0⟩, InOrder := ⟨0, 0⟩, Price := ⟨0, 0⟩, Min := ⟨0, 0⟩, Max := ⟨0, 0⟩,
    rh := none }

/-- The method `Name`: `fmt.Sprintf("%s-%s", bm.From, bm.To)`. -/
def Name (bm : BvvMarket EMA) : String := bm.From ++ "-" ++ bm.To

/-- The method `Total`. -/
def Total (bm : BvvMarket EMA) : Decimal := bm.Available.Add bm.InOrder

/-- The method `exchange`. -/
def exchange (bm : BvvMarket EMA) (amount : Decimal) : Decimal := bm.Price.Mul amount

/-- The method `reverse`: the pointee of the returned pointer, and the error. -/
def reverse (bm : BvvMarket EMA) : BvvMarket EMA × Option Error :=
  if bm.Price.Equal (Decimal.NewFromInt32 0) then
    (zero, some Error.zeroPrice)
  else
    ({ zero with
        From := bm.To
        To := bm.From
        Price := (Decimal.NewFromInt32 1).Div bm.Price
        Available := bm.exchange bm.Available
        InOrder := bm.exchange bm.InOrder }, none)

/-- The method `setPrice` (pointer receiver): the market after the assignment to `Price`,
and the error.  A missing key assigns the zero decimal. -/
def setPrice (bm : BvvMarket EMA) (prices : String → Option Decimal) :
    BvvMarket EMA × Option Error :=
  match prices bm.Name with
  | some price => ({ bm with Price := price }, none)
  | none => ({ bm with Price := ⟨0, 0⟩ }, some (Error.priceNotFound bm.Name))

end BvvMarket

/-- What a call of `NewBvvMarket` leaves behind: the returned market and error, the handler
(whose registry the call may have written) and the heap. -/
structure NewBvvMarketResult (EMA : Type) where
  market : BvvMarket EMA
  err : Option Error
  bh : BvvHandler
  heap : List (BvvMarket EMA)

/-- Lines 44 to 49 of `NewBvvMarket`: the lower bound, zero when `MinLevel` does not parse
or parses below zero. -/
def parseMin {EMA : Type} (ext : Collaborators EMA) (config : bvvMarketConfig) : Decimal :=
  match ext.NewFromString config.MinLevel with
  | .error _ => Decimal.Zero
  | .ok decMin => if decMin.LessThan Decimal.Zero then Decimal.Zero else decMin

/-- Lines 50 to 55 of `NewBvvMarket`: the upper bound, zero when `MaxLevel` does not parse
or parses below `decMin`. -/
def parseMax {EMA : Type} (ext : Collaborators EMA) (config : bvvMarketConfig)
    (decMin : Decimal) : Decimal :=
  match ext.NewFromString config.MaxLevel with
  | .error _ => Decimal.Zero
  | .ok decMax => if decMax.LessThan decMin then Decimal.Zero else decMax

/-- Lines 64 to 71 of `NewBvvMarket`: the market before ribbon, price and inverse. -/
def marketShell {EMA : Type} (symbol fiatSymbol : String) (config : bvvMarketConfig)
    (decAvailable decInOrder : Decimal) : BvvMarket EMA :=
  { BvvMarket.zero with
      From := symbol
      To := fiatSymbol
      handler := true
      config := config
      Available := decAvailable
      InOrder := decInOrder }

/-- Lines 72 to 77 of `NewBvvMarket`: the market with its ribbon handler, or the error of
`NewRibbonHandler`.  The constructor is taken not to write through the market pointer. -/
def attachRibbon {EMA : Type} (ext : Collaborators EMA) (market : BvvMarket EMA)
    (config : bvvMarketConfig) : Except String (BvvMarket EMA) :=
  if config.RibbonConfig.Enabled then
    match ext.NewRibbonHandler market config.RibbonConfig with
    | .error e => .error e
    | .ok rh => .ok { market with rh := rh }
  else .ok market

/-- Lines 85 to 97 of `NewBvvMarket`: the bounds written to the market and to its inverse;
the result is the pair (market, inverse). -/
def setBounds {EMA : Type} (decMin decMax : Decimal) (market inverse : BvvMarket EMA) :
    BvvMarket EMA × BvvMarket EMA :=
  if decMin.Equal Decimal.Zero || decMax.Equal Decimal.Zero then
    ({ market with Max := Decimal.Zero, Min := Decimal.Zero },
     { inverse with Max := Decimal.Zero, Min := Decimal.Zero })
  else
    let inverse := { inverse with Max := decMax, Min := decMin }
    ({ market with Max := inverse.exchange decMax, Min := inverse.exchange decMin }, inverse)

/-- The constructor `NewBvvMarket`.  `heap` holds the markets allocated so far, a pointer
being an index into it; the call allocates the market at `heap.length` and its inverse at
`heap.length + 1` when it registers them, and leaves the heap alone when it returns early
(what it allocated is then unreachable).  The line printed by `fmt.Printf` is not part of
the model. -/
def NewBvvMarket {EMA : Type} (ext : Collaborators EMA) (heap : List (BvvMarket EMA))
    (bh : BvvHandler) (symbol fiatSymbol available inOrder : String) :
    NewBvvMarketResult EMA :=
  match bh.config.Markets symbol with
  | none => ⟨BvvMarket.zero, some (newMarketNotInConfigError symbol), bh, heap⟩
  | some config =>
    let decMin := parseMin ext config
    let decMax := parseMax ext config decMin
    match ext.NewFromString available with
    | .error e => ⟨BvvMarket.zero, some (Error.availableNotDecimal available e), bh, heap⟩
    | .ok decAvailable =>
      match ext.NewFromString inOrder with
      | .error e => ⟨BvvMarket.zero, some (Error.inOrderNotDecimal inOrder e), bh, heap⟩
      | .ok decInOrder =>
        match attachRibbon ext (marketShell symbol fiatSymbol config decAvailable decInOrder)
            config with
        | .error _ => ⟨BvvMarket.zero, none, bh, heap⟩
        | .ok market =>
          match market.setPrice bh.prices with
          | (_, some e) => ⟨BvvMarket.zero, some e, bh, heap⟩
          | (market, none) =>
            let rev := market.reverse
            let market := { market with inverse := some (heap.length + 1) }
            let inverse := { rev.1 with inverse := some heap.length }
            let bounded := setBounds decMin decMax market inverse
            match rev.2 with
            | some e => ⟨BvvMarket.zero, some e, bh, heap⟩
            | none =>
              let markets := mapSet bh.markets bounded.1.Name heap.length
              let markets := mapSet markets bounded.2.Name (heap.length + 1)
              ⟨bounded.1, none, { bh with markets := markets },
                heap ++ [bounded.1, bounded.2]⟩

/-! ## Ribbon queries -/

/-- What a call of `Trend` yields: the two results, and `compared`, the indices `i` at
which `emas[i].Compare(emas[i-1])` was evaluated, in order. -/
structure TrendResult where
  trend : Trend
  err : Option Error
  compared : List Nat
deriving DecidableEq, Repr

/-- The loop of `Trend` from index `i` on: `rest` is what the `range` has not visited yet,
`trend` the named result, `log` the comparisons made so far.  An index outside the slice
cannot occur for `i - 1` here; Go would panic, the model stops with what it has. -/
def TrendLoop {EMA : Type} (m : EMAMethods EMA) (emas : List EMA) :
    Nat → List EMA → Trend → List Nat → TrendResult
  | _, [], trend, log => ⟨trend, none, log⟩
  | i, ema :: rest, trend, log =>
    if i = 0 then TrendLoop m emas (i + 1) rest trend log
    else
      match emas[i - 1]? with
      | none => ⟨trend, none, log⟩
      | some prev =>
        match m.Compare ema prev with
        | .error e => ⟨Trend.UndefinedTrend, some (Error.external e), log ++ [i]⟩
        | .ok (_, emaTrend) =>
          let trend := if i = 1 then emaTrend else trend
          if i > 1 ∧ emaTrend ≠ trend then ⟨Trend.IndecisiveTrend, none, log ++ [i]⟩
          else TrendLoop m emas (i + 1) rest trend (log ++ [i])

/-- The method `Trend`.  The named result `trend` starts at the zero value `BullTrend`. -/
def BvvMarket.Trend {EMA : Type} (m : EMAMethods EMA) (bm : BvvMarket EMA) : TrendResult :=
  match bm.rh with
  | none => ⟨Trend.UndefinedTrend, some Error.trendNeedsRibbon, []⟩
  | some rh =>
    if rh.members.length < 2 then ⟨Trend.UndefinedTrend, some Error.trendNeedsRibbon, []⟩
    else TrendLoop m rh.members 0 rh.members Trend.BullTrend []

/-- A Go call either returns its results or panics. -/
inductive Outcome (α : Type) where
  | returns (a : α)
  | panics (msg : String)
deriving DecidableEq, Repr

/-- The method `Div` with the panic of `QuoRem` on a zero divisor made explicit. -/
def Decimal.DivOrPanic (d d2 : Decimal) : Outcome Decimal :=
  if d2.value = 0 then Outcome.panics "decimal division by 0"
  else Outcome.returns (d.Div d2)

/-- The Go zero value `MABandwidth{}`. -/
def moving_average.MABandwidth.zero : MABandwidth := ⟨⟨0, 0⟩, ⟨0, 0⟩, ⟨0, 0⟩⟩

/-- The method `GetMinPercent`: `hundred.Sub(bw.Min.Div(bw.Cur).Mul(hundred))`. -/
def moving_average.MABandwidth.GetMinPercent (bw : MABandwidth) : Outcome Decimal :=
  let hundred := Decimal.NewFromInt 100
  match bw.Min.DivOrPanic bw.Cur with
  | Outcome.panics msg => Outcome.panics msg
  | Outcome.returns q => Outcome.returns (hundred.Sub (q.Mul hundred))

/-- The method `GetMaxPercent`: `hundred.Sub(bw.Cur.Div(bw.Max).Mul(hundred))`. -/
def moving_average.MABandwidth.GetMaxPercent (bw : MABandwidth) : Outcome Decimal :=
  let hundred := Decimal.NewFromInt 100
  match bw.Cur.DivOrPanic bw.Max with
  | Outcome.panics msg => Outcome.panics msg
  | Outcome.returns q => Outcome.returns (hundred.Sub (q.Mul hundred))

/-- The loop of `GetExpectedRate`: the sum of the readings, or the first error. -/
def sumReadings {EMA : Type} (m : EMAMethods EMA) : List EMA → Decimal → Except String Decimal
  | [], sum => .ok sum
  | ema :: rest, sum =>
    match m.GetWithOffset ema with
    | .error e => .error e
    | .ok emaval => sumReadings m rest (sum.Add emaval)

/-- The method `GetExpectedRate`.  The named result `total` is still the zero decimal when
a reading fails. -/
def BvvMarket.GetExpectedRate {EMA : Type} (m : EMAMethods EMA) (bm : BvvMarket EMA) :
    Outcome (Decimal × Option Error) :=
  match bm.rh with
  | none => Outcome.returns (Decimal.Zero, some Error.noRibbonHandler)
  | some rh =>
    match rh.emas with
    | none => Outcome.returns (Decimal.Zero, some Error.noRibbonHandler)
    | some emas =>
      match sumReadings m emas Decimal.Zero with
      | .error e => Outcome.returns (⟨0, 0⟩, some (Error.external e))
      | .ok sum =>
        match sum.DivOrPanic (Decimal.NewFromInt emas.length) with
        | Outcome.panics msg => Outcome.panics msg
        | Outcome.returns mean => Outcome.returns (mean, none)

/-- The method `GetBandWidth`.  The index is a Go `int`; a negative one passes the guard
`len(bm.rh.emas) <= ema` and the slice access panics.  When the member reports an error the
bandwidth it hands back with it is not known and is taken to be the zero value. -/
def BvvMarket.GetBandWidth {EMA : Type} (m : EMAMethods EMA) (bm : BvvMarket EMA) (ema : Int) :
    Outcome (MABandwidth × Option Error) :=
  match bm.rh with
  | none => Outcome.returns (MABandwidth.zero, some Error.bandwidthNeedsRibbon)
  | some rh =>
    if (rh.members.length : Int) ≤ ema then
      Outcome.returns (MABandwidth.zero, some (Error.ribbonNotDefined ema))
    else if ema < 0 then Outcome.panics "index out of range"
    else
      match rh.members[ema.toNat]? with
      | none => Outcome.panics "index out of range"
      | some member =>
        match m.GetBandwidth member with
        | .ok bw => Outcome.returns (bw, none)
        | .error e => Outcome.returns (MABandwidth.zero, some (Error.external e))

/-! ## Vocabulary of the statements -/

/-- The direction reported by `emas[i].Compare(emas[i-1])`: `none` when the comparison
fails (or when one of the two members does not exist). -/
def pairTrend {EMA : Type} (m : EMAMethods EMA) (emas : List EMA) (i : Nat) : Option Trend :=
  match emas[i]?, emas[i - 1]? with
  | some ema, some prev =>
    match m.Compare ema prev with
    | .ok (_, t) => some t
    | .error _ => none
  | _, _ => none

/-- The error of `emas[i].Compare(emas[i-1])`, when it fails. -/
def pairError {EMA : Type} (m : EMAMethods EMA) (emas : List EMA) (i : Nat) : Option String :=
  match emas[i]?, emas[i - 1]? with
  | some ema, some prev =>
    match m.Compare ema prev with
    | .ok _ => none
    | .error e => some e
  | _, _ => none

/-! ## Sample inputs -/

/-- A stand-in for the moving averages in the examples: a member is its reading, a member
without data (reading `0`) cannot be compared, and a pair is a bull pair when the reading
rises. -/
def sampleMethods : EMAMethods Nat where
  Compare := fun ema prev =>
    if ema = 0 ∨ prev = 0 then .error "no data"
    else if prev < ema then .ok (⟨(ema : Int) - prev, 0⟩, Trend.BullTrend)
    else .ok (⟨(prev : Int) - ema, 0⟩, Trend.BearTrend)
  GetWithOffset := fun ema => if ema = 0 then .error "no data" else .ok ⟨ema, 0⟩
  GetBandwidth := fun ema =>
    if ema = 0 then .error "no data" else .ok ⟨⟨ema, 0⟩, ⟨ema, 0⟩, ⟨ema, 0⟩⟩

/-- A market that carries a ribbon with the given readings and nothing else. -/
def sampleRibbon (readings : List Nat) : BvvMarket Nat :=
  { (BvvMarket.zero : BvvMarket Nat) with rh := some ⟨some readings⟩ }

/-- A market `BTC-EUR` at the given price holding `0.5` and `0.1`. -/
def sampleMarket (price : Decimal) : BvvMarket Nat :=
  { (BvvMarket.zero : BvvMarket Nat) with
      From := "BTC", To := "EUR", Price := price, Available := ⟨5, -1⟩, InOrder := ⟨1, -1⟩ }

/-- A stand-in for `decimal.NewFromString` in the examples: it reads the strings listed the
way the library does and rejects every other string. -/
def sampleParse (s : String) : Except String Decimal :=
  if s = "100" then .ok ⟨100, 0⟩
  else if s = "1000" then .ok ⟨1000, 0⟩
  else if s = "0.5" then .ok ⟨5, -1⟩
  else if s = "0.1" then .ok ⟨1, -1⟩
  else if s = "-5" then .ok ⟨-5, 0⟩
  else .error "cannot convert to decimal"

/-- Stand-ins for the collaborators in the examples: the ribbon handler cannot be built
from an empty parameter list and otherwise holds two members. -/
def sampleExt : Collaborators Nat where
  NewFromString := sampleParse
  NewRibbonHandler := fun _ c =>
    if c.ribbonParams = [] then .error "no ribbon parameters"
    else .ok (some ⟨some [10, 12]⟩)

/-- A handler for the examples.  Configured: `BTC`, `EUR` and `LTC` with bounds `100` and
`1000`, `ETH` with a negative lower bound, `XRP` with a ribbon that cannot be built.
Priced: all of them against `EUR` except `LTC`.  The registry is empty. -/
def sampleHandler : BvvHandler where
  config := ⟨fun s =>
    if s = "BTC" ∨ s = "EUR" ∨ s = "LTC" then some ⟨"100", "1000", ⟨false, []⟩⟩
    else if s = "ETH" then some ⟨"-5", "1000", ⟨false, []⟩⟩
    else if s = "XRP" then some ⟨"100", "1000", ⟨true, []⟩⟩
    else none⟩
  prices := fun s =>
    if s = "BTC-EUR" then some ⟨20000, 0⟩
    else if s = "ETH-EUR" then some ⟨2000, 0⟩
    else if s = "EUR-EUR" then some ⟨1, 0⟩
    else if s = "XRP-EUR" then some ⟨5, -1⟩
    else none
  markets := fun _ => none

/-- A handler for the examples with unusual prices: `XRP` (whose ribbon cannot be built) and
`ETH` are quoted at `0.00`, `BTC` at `10 ^ 17`.  The configuration is the one of
`sampleHandler`. -/
def extremeHandler : BvvHandler where
  config := sampleHandler.config
  prices := fun s =>
    if s = "BTC-EUR" then some ⟨1, 17⟩
    else if s = "XRP-EUR" ∨ s = "ETH-EUR" then some ⟨0, -2⟩
    else none
  markets := fun _ => none

/-- The registry is well linked on a heap: every entry points to a market whose inverse
pointer leads to a market that points back to it. -/
def WellLinked {EMA : Type} (heap : List (BvvMarket EMA)) (markets : String → Option Nat) :
    Prop :=
  ∀ k p, markets k = some p →
    ∃ m q inv, heap[p]? = some m ∧ m.inverse = some q ∧ heap[q]? = some inv ∧
      inv.inverse = some p

/-- The number a member's `GetWithOffset` reports, `0` when the reading fails. -/
def readingOf {EMA : Type} (m : EMAMethods EMA) (ema : EMA) : ℚ :=
  match m.GetWithOffset ema with
  | .ok v => v.toRat
  | .error _ => 0

/-- A handler for the examples in which the one configured symbol, `ADA`, has its lower
bound configured as `-5` and a ribbon that cannot be built; `ADA` is quoted at `0.5`.  The
registry is empty. -/
def adaHandler : BvvHandler where
  config := ⟨fun s => if s = "ADA" then some ⟨"-5", "1000", ⟨true, []⟩⟩ else none⟩
  prices := fun s => if s = "ADA-EUR" then some ⟨5, -1⟩ else none
  markets := fun _ => none

/-! ## Decimal comparison and product denote what they should -/

namespace Decimal

theorem rescale_exp (d : Decimal) (e : Int) : (d.rescale e).exp = e := by
  unfold rescale
  split
  · assumption
  · split <;> rfl

theorem toRat_rescale_of_le (d : Decimal) (e : Int) (h : e ≤ d.exp) :
    (d.rescale e).toRat = d.toRat := by
  unfold rescale
  split
  · rfl
  · rename_i hne
    have hlt : ¬ e > d.exp := by omega
    simp only [hlt, if_false, toRat]
    have hd : ((e - d.exp).natAbs : Int) = d.exp - e := by omega
    have h10 : (10 : ℚ) ≠ 0 := by norm_num
    have : (10 : ℚ) ^ d.exp = (10 : ℚ) ^ ((e - d.exp).natAbs : Int) * (10 : ℚ) ^ e := by
      rw [← zpow_add₀ h10, hd]; congr 1; ring
    rw [this, zpow_natCast]; push_cast; ring

theorem bigCmp_eq_neg_one (a b : Int) : bigCmp a b = -1 ↔ a < b := by
  unfold bigCmp; split
  · simp [*]
  · split <;> simp [*]

theorem bigCmp_eq_zero (a b : Int) : bigCmp a b = 0 ↔ a = b := by
  unfold bigCmp; split
  · rename_i h; simp; omega
  · split <;> simp [*]

/-- The two operands after alignment denote the same numbers and share an exponent. -/
theorem Cmp_aligned (d d2 : Decimal) :
    ∃ (a b e : Int), d.Cmp d2 = bigCmp a b ∧ d.toRat = (a : ℚ) * (10 : ℚ) ^ e ∧
      d2.toRat = (b : ℚ) * (10 : ℚ) ^ e := by
  unfold Cmp
  split
  · rename_i h
    exact ⟨d.value, d2.value, d.exp, rfl, rfl, by rw [h]; rfl⟩
  · rename_i h
    simp only [RescalePair]
    split
    · rename_i hlt
      refine ⟨d.value, (d2.rescale d.exp).value, d.exp, rfl, rfl, ?_⟩
      have := toRat_rescale_of_le d2 d.exp (le_of_lt hlt)
      rw [← this]; simp only [toRat, rescale_exp]
    · have hgt : d.exp > d2.exp := by omega
      simp only [hgt, if_true]
      refine ⟨(d.rescale d2.exp).value, d2.value, d2.exp, rfl, ?_, rfl⟩
      have := toRat_rescale_of_le d d2.exp (le_of_lt hgt)
      rw [← this]; simp only [toRat, rescale_exp]

theorem LessThan_iff (d d2 : Decimal) : d.LessThan d2 = true ↔ d.toRat < d2.toRat := by
  obtain ⟨a, b, e, hc, ha, hb⟩ := Cmp_aligned d d2
  have hpos : (0 : ℚ) < (10 : ℚ) ^ e := zpow_pos (by norm_num) e
  simp only [LessThan, beq_iff_eq, hc, bigCmp_eq_neg_one, ha, hb]
  rw [mul_lt_mul_right hpos]; exact Int.cast_lt.symm

theorem Equal_iff (d d2 : Decimal) : d.Equal d2 = true ↔ d.toRat = d2.toRat := by
  obtain ⟨a, b, e, hc, ha, hb⟩ := Cmp_aligned d d2
  have hpos : (0 : ℚ) < (10 : ℚ) ^ e := zpow_pos (by norm_num) e
  simp only [Equal, beq_iff_eq, hc, bigCmp_eq_zero, ha, hb]
  rw [mul_left_inj' (ne_of_gt hpos)]; exact Int.cast_inj.symm

theorem toRat_Mul (d d2 : Decimal) : (d.Mul d2).toRat = d.toRat * d2.toRat := by
  simp only [Mul, toRat]
  rw [zpow_add₀ (by norm_num : (10 : ℚ) ≠ 0)]; push_cast; ring

theorem toRat_Zero : Zero.toRat = 0 := by simp [Zero, toRat]

theorem toRat_NewFromInt32 (n : Int) : (NewFromInt32 n).toRat = n := by
  simp [NewFromInt32, toRat]

theorem Equal_zero_iff (d : Decimal) : d.Equal (NewFromInt32 0) = true ↔ d.toRat = 0 := by
  rw [Equal_iff, toRat_NewFromInt32]; simp

theorem Equal_Zero_iff (d : Decimal) : d.Equal Zero = true ↔ d.toRat = 0 := by
  rw [Equal_iff, toRat_Zero]

end Decimal


/-! ## The quotient of the decimal library is the exact quotient rounded at 16 places -/

namespace Decimal

theorem tmod_bounds_nonneg (a b : Int) (hb : b ≠ 0) (ha : 0 ≤ a) :
    0 ≤ a.tmod b ∧ a.tmod b < |b| := by
  refine ⟨Int.tmod_nonneg b ha, ?_⟩
  rcases lt_or_gt_of_ne hb with h | h
  · have := Int.tmod_lt_of_pos a (show 0 < -b by omega)
    rw [Int.tmod_neg] at this
    rw [abs_of_neg h]; exact this
  · have := Int.tmod_lt_of_pos a h
    rw [abs_of_pos h]; exact this

theorem tmod_bounds_nonpos (a b : Int) (hb : b ≠ 0) (ha : a ≤ 0) :
    a.tmod b ≤ 0 ∧ -|b| < a.tmod b := by
  have h := tmod_bounds_nonneg (-a) b hb (by omega)
  have hneg : (-a).tmod b = -(a.tmod b) := by
    rw [Int.tmod_def, Int.tmod_def, Int.neg_tdiv]; ring
  rw [hneg] at h
  constructor <;> omega

/-- The coefficient `DivRound` arrives at for the operands `aa` and `bb`. -/
theorem round_half_away (aa bb : Int) (hb : bb ≠ 0) :
    |2 * ((if 2 * (aa.tmod bb).natAbs < (bb.natAbs : Int) then aa.tdiv bb
          else if aa.sign * bb.sign < 0 then aa.tdiv bb - 1 else aa.tdiv bb + 1) * bb - aa)|
      ≤ |bb| := by
  have hdiv := Int.tdiv_add_tmod aa bb
  generalize aa.tdiv bb = q at hdiv ⊢
  generalize hr : aa.tmod bb = r at hdiv ⊢
  have hnn := tmod_bounds_nonneg aa bb hb
  have hnp := tmod_bounds_nonpos aa bb hb
  rw [hr] at hnn hnp
  generalize hp : bb * q = p at hdiv
  have e1 : q * bb = p := by rw [mul_comm]; exact hp
  have e2 : (q - 1) * bb = p - bb := by rw [sub_mul, e1]; ring
  have e3 : (q + 1) * bb = p + bb := by rw [add_mul, e1]; ring
  rcases lt_or_gt_of_ne hb with hbn | hbp
  · have hsb : bb.sign = -1 := Int.sign_eq_neg_one_of_neg hbn
    rw [abs_of_neg hbn] at hnn hnp ⊢
    rcases lt_trichotomy aa 0 with han | ha0 | hap
    · have hsa : aa.sign = -1 := Int.sign_eq_neg_one_of_neg han
      have := hnp (le_of_lt han)
      simp only [hsa, hsb]
      split
      · rw [e1, abs_le]; omega
      · rw [if_neg (by decide), e3, abs_le]; omega
    · subst ha0
      have h1 := hnn (le_refl _)
      have h2 := hnp (le_refl _)
      have : r = 0 := by omega
      subst this
      simp only [Int.natAbs_zero]
      rw [if_pos (by omega), e1, abs_le]; omega
    · have hsa : aa.sign = 1 := Int.sign_eq_one_of_pos hap
      have := hnn (le_of_lt hap)
      simp only [hsa, hsb]
      split
      · rw [e1, abs_le]; omega
      · rw [if_pos (by decide), e2, abs_le]; omega
  · have hsb : bb.sign = 1 := Int.sign_eq_one_of_pos hbp
    rw [abs_of_pos hbp] at hnn hnp ⊢
    rcases lt_trichotomy aa 0 with han | ha0 | hap
    · have hsa : aa.sign = -1 := Int.sign_eq_neg_one_of_neg han
      have := hnp (le_of_lt han)
      simp only [hsa, hsb]
      split
      · rw [e1, abs_le]; omega
      · rw [if_pos (by decide), e2, abs_le]; omega
    · subst ha0
      have h1 := hnn (le_refl _)
      have h2 := hnp (le_refl _)
      have : r = 0 := by omega
      subst this
      simp only [Int.natAbs_zero]
      rw [if_pos (by omega), e1, abs_le]; omega
    · have hsa : aa.sign = 1 := Int.sign_eq_one_of_pos hap
      have := hnn (le_of_lt hap)
      simp only [hsa, hsb]
      split
      · rw [e1, abs_le]; omega
      · rw [if_neg (by decide), e3, abs_le]; omega

theorem bigCmp_neg_iff (a b : Int) : bigCmp a b < 0 ↔ a < b := by
  unfold bigCmp; split
  · simp [*]
  · split <;> simp [*]

theorem Cmp_neg_iff (d d2 : Decimal) : d.Cmp d2 < 0 ↔ d.toRat < d2.toRat := by
  obtain ⟨a, b, e, hc, ha, hb⟩ := Cmp_aligned d d2
  have hpos : (0 : ℚ) < (10 : ℚ) ^ e := zpow_pos (by norm_num) e
  rw [hc, bigCmp_neg_iff, ha, hb, mul_lt_mul_right hpos]; exact Int.cast_lt.symm

theorem Sub_same_exp (a b e : Int) : Sub ⟨a, e⟩ (New b e) = ⟨a - b, e⟩ := by
  simp [Sub, RescalePair, New]

theorem Add_same_exp (a b e : Int) : Add ⟨a, e⟩ (New b e) = ⟨a + b, e⟩ := by
  simp [Add, RescalePair, New]

theorem sign_mul_pow (a : Int) (n : Nat) : (a * 10 ^ n).sign = a.sign := by
  have h : (0 : Int) < 10 ^ n := pow_pos (by norm_num) n
  rw [Int.sign_mul, Int.sign_eq_one_of_pos h, mul_one]

/-- What `DivRound` computes: integer operands `aa` and `bb` with the quotient of the two
numbers scaled by `10 ^ precision` as their ratio, and the rounded coefficient. -/
theorem DivRound_operands (d d2 : Decimal) (P : Int) (h2 : d2.value ≠ 0) :
    ∃ aa bb : Int, bb ≠ 0 ∧
      (aa : ℚ) / (bb : ℚ) = d.toRat / d2.toRat * (10 : ℚ) ^ P ∧
      d.DivRound d2 P
        = ⟨if 2 * (aa.tmod bb).natAbs < (bb.natAbs : Int) then aa.tdiv bb
            else if aa.sign * bb.sign < 0 then aa.tdiv bb - 1 else aa.tdiv bb + 1, -P⟩ := by
  have h10 : (10 : ℚ) ≠ 0 := by norm_num
  have h2q : (d2.value : ℚ) ≠ 0 := Int.cast_ne_zero.mpr h2
  by_cases he : d.exp - d2.exp - -P < 0
  · -- the divisor is scaled up
    obtain ⟨n, hn⟩ : ∃ n : Nat, (n : Int) = -(d.exp - d2.exp - -P) :=
      ⟨(-(d.exp - d2.exp - -P)).toNat, Int.toNat_of_nonneg (by omega)⟩
    have hnat : (-(d.exp - d2.exp - -P)).toNat = n := by omega
    refine ⟨d.value, d2.value * 10 ^ n, mul_ne_zero h2 (by positivity), ?_, ?_⟩
    · simp only [toRat]
      have hexp : (10 : ℚ) ^ d2.exp = (10 : ℚ) ^ d.exp * (10 : ℚ) ^ P * (10 : ℚ) ^ (n : Int) := by
        rw [← zpow_add₀ h10, ← zpow_add₀ h10]; congr 1; omega
      rw [hexp, zpow_natCast]
      push_cast
      have hp1 : (10 : ℚ) ^ d.exp ≠ 0 := zpow_ne_zero _ h10
      have hp2 : (10 : ℚ) ^ P ≠ 0 := zpow_ne_zero _ h10
      have hp3 : (10 : ℚ) ^ n ≠ 0 := pow_ne_zero _ h10
      field_simp
      ring
    · have hc : ((⟨2 * (d.value.tmod (d2.value * 10 ^ n)).natAbs, d.exp + P⟩ : Decimal).Cmp
          d2.Abs < 0) ↔
          2 * ((d.value.tmod (d2.value * 10 ^ n)).natAbs : Int)
            < ((d2.value * 10 ^ n).natAbs : Int) := by
        rw [Cmp_neg_iff]
        simp only [toRat, Abs]
        have hexp : (10 : ℚ) ^ d2.exp = (10 : ℚ) ^ (n : Int) * (10 : ℚ) ^ (d.exp + P) := by
          rw [← zpow_add₀ h10]; congr 1; omega
        rw [hexp, ← mul_assoc, mul_lt_mul_right (zpow_pos (by norm_num) _), zpow_natCast]
        rw [Int.natAbs_mul, Int.natAbs_pow]
        have : ((10 : Int).natAbs) = 10 := rfl
        rw [this]
        constructor
        · intro h; exact_mod_cast h
        · intro h; exact_mod_cast h
      unfold DivRound QuoRem
      simp only [he, if_true, hnat, hc, sign_mul_pow]
      split
      · rfl
      · split
        · exact Sub_same_exp _ _ _
        · exact Add_same_exp _ _ _
  · -- the dividend is scaled up
    obtain ⟨n, hn⟩ : ∃ n : Nat, (n : Int) = d.exp - d2.exp - -P :=
      ⟨(d.exp - d2.exp - -P).toNat, Int.toNat_of_nonneg (by omega)⟩
    have hnat : (d.exp - d2.exp - -P).toNat = n := by omega
    refine ⟨d.value * 10 ^ n, d2.value, h2, ?_, ?_⟩
    · simp only [toRat]
      have hexp : (10 : ℚ) ^ d.exp * (10 : ℚ) ^ P = (10 : ℚ) ^ d2.exp * (10 : ℚ) ^ (n : Int) := by
        rw [← zpow_add₀ h10, ← zpow_add₀ h10]; congr 1; omega
      have hp1 : (10 : ℚ) ^ d2.exp ≠ 0 := zpow_ne_zero _ h10
      rw [zpow_natCast] at hexp
      push_cast
      field_simp
      calc (d.value : ℚ) * 10 ^ n * ((d2.value : ℚ) * 10 ^ d2.exp)
          = (d.value : ℚ) * (d2.value : ℚ) * ((10 : ℚ) ^ d2.exp * 10 ^ n) := by ring
        _ = (d.value : ℚ) * (d2.value : ℚ) * ((10 : ℚ) ^ d.exp * (10 : ℚ) ^ P) := by rw [hexp]
        _ = (d.value : ℚ) * 10 ^ d.exp * 10 ^ P * (d2.value : ℚ) := by ring
    · have hc : ((⟨2 * ((d.value * 10 ^ n).tmod d2.value).natAbs, -P + d2.exp + P⟩ : Decimal).Cmp
          d2.Abs < 0) ↔
          2 * (((d.value * 10 ^ n).tmod d2.value).natAbs : Int) < (d2.value.natAbs : Int) := by
        rw [Cmp_neg_iff]
        simp only [toRat, Abs]
        have hexp : -P + d2.exp + P = d2.exp := by omega
        rw [hexp, mul_lt_mul_right (zpow_pos (by norm_num) _)]
        constructor
        · intro h; exact_mod_cast h
        · intro h; exact_mod_cast h
      unfold DivRound QuoRem
      simp only [he, if_false, hnat, hc, sign_mul_pow]
      split
      · rfl
      · split
        · exact Sub_same_exp _ _ _
        · exact Add_same_exp _ _ _

/-- The library quotient differs from the exact quotient by at most half a unit of the
sixteenth decimal place. -/
theorem Div_close (d d2 : Decimal) (h2 : d2.toRat ≠ 0) :
    |(d.Div d2).toRat - d.toRat / d2.toRat| ≤ 1 / (2 * 10 ^ 16) := by
  have hv : d2.value ≠ 0 := by
    intro h; apply h2; simp [toRat, h]
  obtain ⟨aa, bb, hb, hratio, hres⟩ := DivRound_operands d d2 DivisionPrecision hv
  have hround := round_half_away aa bb hb
  unfold Div
  rw [hres]
  generalize (if 2 * (aa.tmod bb).natAbs < (bb.natAbs : Int) then aa.tdiv bb
            else if aa.sign * bb.sign < 0 then aa.tdiv bb - 1 else aa.tdiv bb + 1) = Q
    at hround ⊢
  have hbq : (bb : ℚ) ≠ 0 := Int.cast_ne_zero.mpr hb
  have hP : (10 : ℚ) ^ DivisionPrecision = 10 ^ 16 := by
    simp only [DivisionPrecision]; norm_cast
  have hPn : (10 : ℚ) ^ (-DivisionPrecision) = 1 / 10 ^ 16 := by
    rw [zpow_neg, hP]; simp
  rw [hP] at hratio
  have hq : d.toRat / d2.toRat = (aa : ℚ) / (bb : ℚ) / 10 ^ 16 := by
    rw [hratio]; field_simp; ring
  have ht : (⟨Q, -DivisionPrecision⟩ : Decimal).toRat = (Q : ℚ) * (1 / 10 ^ 16) := by
    simp only [toRat]; rw [hPn]
  rw [ht, hq]
  have hcast : |(2 : ℚ) * ((Q : ℚ) * bb - aa)| ≤ |(bb : ℚ)| := by
    have := (Int.cast_le (R := ℚ)).mpr hround
    simpa [Int.cast_abs] using this
  have habs : |(Q : ℚ) - aa / bb| ≤ 1 / 2 := by
    have hbpos : 0 < |(bb : ℚ)| := abs_pos.mpr hbq
    have e : (Q : ℚ) - aa / bb = (2 * ((Q : ℚ) * bb - aa)) / (2 * bb) := by
      field_simp; ring
    have h2b : |(2 : ℚ) * bb| = 2 * |(bb : ℚ)| := by
      rw [abs_mul, abs_of_pos (show (0 : ℚ) < 2 by norm_num)]
    rw [e, abs_div, h2b, div_le_iff₀ (by positivity)]
    linarith
  have e2 : (Q : ℚ) * (1 / 10 ^ 16) - aa / bb / 10 ^ 16 = ((Q : ℚ) - aa / bb) / 10 ^ 16 := by
    ring
  rw [e2, abs_div, abs_of_pos (show (0 : ℚ) < 10 ^ 16 by positivity)]
  rw [div_le_iff₀ (by positivity)]
  calc |(Q : ℚ) - aa / bb| ≤ 1 / 2 := habs
    _ = 1 / (2 * 10 ^ 16) * 10 ^ 16 := by norm_num

end Decimal

/-! ## More on the decimal operations: sums, and the grid of the quotient -/

namespace Decimal

theorem RescalePair_spec (d d2 : Decimal) :
    (RescalePair d d2).1.toRat = d.toRat ∧ (RescalePair d d2).2.toRat = d2.toRat ∧
      (RescalePair d d2).1.exp = (RescalePair d d2).2.exp := by
  unfold RescalePair
  split
  · rename_i h
    exact ⟨rfl, toRat_rescale_of_le d2 d.exp (le_of_lt h), (rescale_exp d2 d.exp).symm⟩
  · split
    · rename_i h
      exact ⟨toRat_rescale_of_le d d2.exp (le_of_lt h), rfl, rescale_exp d d2.exp⟩
    · refine ⟨rfl, rfl, ?_⟩
      show d.exp = d2.exp
      omega

theorem toRat_Add (d d2 : Decimal) : (d.Add d2).toRat = d.toRat + d2.toRat := by
  obtain ⟨h1, h2, h3⟩ := RescalePair_spec d d2
  rw [← h1, ← h2]
  simp only [Add, toRat]
  rw [← h3]; push_cast; ring

theorem toRat_Sub (d d2 : Decimal) : (d.Sub d2).toRat = d.toRat - d2.toRat := by
  obtain ⟨h1, h2, h3⟩ := RescalePair_spec d d2
  rw [← h1, ← h2]
  simp only [Sub, toRat]
  rw [← h3]; push_cast; ring

theorem toRat_NewFromInt (n : Int) : (NewFromInt n).toRat = n := by
  simp [NewFromInt, toRat]

theorem value_ne_zero_of_toRat (d : Decimal) (h : d.toRat ≠ 0) : d.value ≠ 0 := by
  intro hv; apply h; simp [toRat, hv]

theorem toRat_ne_zero_of_value (d : Decimal) (h : d.value ≠ 0) : d.toRat ≠ 0 := by
  simp only [toRat]
  exact mul_ne_zero (Int.cast_ne_zero.mpr h) (zpow_ne_zero _ (by norm_num))

/-- The quotient has sixteen decimals: it is an integer number of units `10 ^ (-16)`. -/
theorem Div_grid (d d2 : Decimal) (h2 : d2.toRat ≠ 0) :
    ∃ Q : Int, (d.Div d2).toRat = (Q : ℚ) / 10 ^ 16 := by
  obtain ⟨aa, bb, _, _, hres⟩ :=
    DivRound_operands d d2 DivisionPrecision (value_ne_zero_of_toRat d2 h2)
  refine ⟨if 2 * (aa.tmod bb).natAbs < (bb.natAbs : Int) then aa.tdiv bb
            else if aa.sign * bb.sign < 0 then aa.tdiv bb - 1 else aa.tdiv bb + 1, ?_⟩
  unfold Div
  rw [hres]
  simp only [toRat, DivisionPrecision]
  rw [zpow_neg, div_eq_mul_inv]
  norm_cast

/-- Two numbers on the grid that are within half a unit of the same number coincide; so a
quotient that has at most sixteen decimals is computed exactly. -/
theorem Div_exact (d d2 : Decimal) (h2 : d2.toRat ≠ 0) (k : Int)
    (hk : d.toRat / d2.toRat = (k : ℚ) / 10 ^ 16) :
    (d.Div d2).toRat = d.toRat / d2.toRat := by
  obtain ⟨Q, hQ⟩ := Div_grid d d2 h2
  have hc := Div_close d d2 h2
  rw [hQ, hk] at hc ⊢
  have h16 : (0 : ℚ) < 10 ^ 16 := by positivity
  have e : (Q : ℚ) / 10 ^ 16 - (k : ℚ) / 10 ^ 16 = ((Q - k : Int) : ℚ) / 10 ^ 16 := by
    push_cast; ring
  rw [e, abs_div, abs_of_pos h16, div_le_iff₀ h16] at hc
  have hc2 : |((Q - k : Int) : ℚ)| ≤ 1 / 2 := by
    calc |((Q - k : Int) : ℚ)| ≤ 1 / (2 * 10 ^ 16) * 10 ^ 16 := hc
      _ = 1 / 2 := by norm_num
  have hlt : |((Q - k : Int) : ℚ)| < 1 := lt_of_le_of_lt hc2 (by norm_num)
  rw [← Int.cast_abs] at hlt
  have hz : |Q - k| < 1 := by exact_mod_cast hlt
  have : Q = k := by
    have := abs_lt.mp hz
    omega
  rw [this]

/-- The quotient does not cross a grid point that bounds the exact quotient from above. -/
theorem Div_le_of_le (d d2 : Decimal) (h2 : d2.toRat ≠ 0) (k : Int)
    (hk : d.toRat / d2.toRat ≤ (k : ℚ) / 10 ^ 16) :
    (d.Div d2).toRat ≤ (k : ℚ) / 10 ^ 16 := by
  obtain ⟨Q, hQ⟩ := Div_grid d d2 h2
  have hc := Div_close d d2 h2
  rw [hQ] at hc ⊢
  have h16 : (0 : ℚ) < 10 ^ 16 := by positivity
  have h1 := (abs_le.mp hc).2
  have h3 : (Q : ℚ) / 10 ^ 16 ≤ (k : ℚ) / 10 ^ 16 + 1 / (2 * 10 ^ 16) := by linarith
  have h4 : (Q : ℚ) ≤ k + 1 / 2 := by
    have := mul_le_mul_of_nonneg_right h3 (le_of_lt h16)
    have e1 : (Q : ℚ) / 10 ^ 16 * 10 ^ 16 = Q := by field_simp
    have e2 : ((k : ℚ) / 10 ^ 16 + 1 / (2 * 10 ^ 16)) * 10 ^ 16 = k + 1 / 2 := by
      field_simp; ring
    rw [e1, e2] at this; exact this
  have h5 : (Q : ℚ) < ((k + 1 : Int) : ℚ) := by push_cast; linarith
  have h6 : Q < k + 1 := by exact_mod_cast h5
  have h7 : Q ≤ k := by omega
  have h8 : (Q : ℚ) ≤ k := by exact_mod_cast h7
  exact div_le_div_of_nonneg_right h8 (le_of_lt h16)

/-- The quotient does not cross a grid point that bounds the exact quotient from below. -/
theorem Div_ge_of_ge (d d2 : Decimal) (h2 : d2.toRat ≠ 0) (k : Int)
    (hk : (k : ℚ) / 10 ^ 16 ≤ d.toRat / d2.toRat) :
    (k : ℚ) / 10 ^ 16 ≤ (d.Div d2).toRat := by
  obtain ⟨Q, hQ⟩ := Div_grid d d2 h2
  have hc := Div_close d d2 h2
  rw [hQ] at hc ⊢
  have h16 : (0 : ℚ) < 10 ^ 16 := by positivity
  have h1 := (abs_le.mp hc).1
  have h3 : (k : ℚ) / 10 ^ 16 - 1 / (2 * 10 ^ 16) ≤ (Q : ℚ) / 10 ^ 16 := by linarith
  have h4 : (k : ℚ) - 1 / 2 ≤ Q := by
    have := mul_le_mul_of_nonneg_right h3 (le_of_lt h16)
    have e1 : (Q : ℚ) / 10 ^ 16 * 10 ^ 16 = Q := by field_simp
    have e2 : ((k : ℚ) / 10 ^ 16 - 1 / (2 * 10 ^ 16)) * 10 ^ 16 = k - 1 / 2 := by
      field_simp; ring
    rw [e1, e2] at this; exact this
  have h5 : ((k - 1 : Int) : ℚ) < (Q : ℚ) := by push_cast; linarith
  have h6 : k - 1 < Q := by exact_mod_cast h5
  have h7 : k ≤ Q := by omega
  have h8 : (k : ℚ) ≤ Q := by exact_mod_cast h7
  exact div_le_div_of_nonneg_right h8 (le_of_lt h16)

/-- The reciprocal of a price below `2 * 10 ^ 16` in absolute value does not round to
zero. -/
theorem Div_one_ne_zero (p : Decimal) (hp : p.toRat ≠ 0) (hlt : |p.toRat| < 2 * 10 ^ 16) :
    ((NewFromInt32 1).Div p).toRat ≠ 0 := by
  intro h0
  have hc := Div_close (NewFromInt32 1) p hp
  rw [h0, toRat_NewFromInt32] at hc
  simp only [Int.cast_one, zero_sub, abs_neg, abs_div, abs_one] at hc
  have hpos : 0 < |p.toRat| := abs_pos.mpr hp
  rw [div_le_div_iff₀ hpos (by positivity)] at hc
  linarith

end Decimal
/-! ## Claims about `reverse` -/

/-- C4: `reverse` fails exactly when the price is zero, and otherwise returns the market
with the two symbols swapped, price `1 / Price` (the quotient `Div` of the decimal library,
which is the exact quotient rounded at the sixteenth decimal place) and balances
`Price * Available` and `Price * InOrder` (the library product `Mul`, which denotes the
exact product). -/
theorem reverse_fails_iff_zero_price {EMA : Type} (bm : BvvMarket EMA) :
    (bm.reverse.2 ≠ none ↔ bm.Price.toRat = 0) ∧
    (bm.reverse.2 = none →
      bm.reverse.1.From = bm.To ∧ bm.reverse.1.To = bm.From ∧
      bm.reverse.1.Price = (Decimal.NewFromInt32 1).Div bm.Price ∧
      bm.reverse.1.Available = bm.Price.Mul bm.Available ∧
      bm.reverse.1.InOrder = bm.Price.Mul bm.InOrder ∧
      bm.reverse.1.Available.toRat = bm.Price.toRat * bm.Available.toRat ∧
      bm.reverse.1.InOrder.toRat = bm.Price.toRat * bm.InOrder.toRat ∧
      |bm.reverse.1.Price.toRat - 1 / bm.Price.toRat| ≤ 1 / (2 * 10 ^ 16)) := by
  by_cases h : bm.Price.Equal (Decimal.NewFromInt32 0) = true
  · have hz := (Decimal.Equal_zero_iff _).mp h
    simp [BvvMarket.reverse, h, hz]
  · have hz : ¬ bm.Price.toRat = 0 := fun hz => h ((Decimal.Equal_zero_iff _).mpr hz)
    have hclose := Decimal.Div_close (Decimal.NewFromInt32 1) bm.Price hz
    rw [Decimal.toRat_NewFromInt32] at hclose
    have hrev : bm.reverse
        = ({ (BvvMarket.zero : BvvMarket EMA) with
               From := bm.To, To := bm.From,
               Price := (Decimal.NewFromInt32 1).Div bm.Price,
               Available := bm.Price.Mul bm.Available,
               InOrder := bm.Price.Mul bm.InOrder }, none) := by
      simp only [BvvMarket.reverse, h, BvvMarket.exchange]
      rfl
    rw [hrev]
    refine ⟨by simp [hz], fun _ => ⟨rfl, rfl, rfl, rfl, rfl, Decimal.toRat_Mul _ _,
      Decimal.toRat_Mul _ _, ?_⟩⟩
    simpa using hclose

/-- C4, at the price `20000` (the inverse has price `0.00005` and balances `10000` and
`2000`) and at the price `0.00` (no inverse). -/
theorem reverse_fails_iff_zero_price_witness :
    ((sampleMarket ⟨20000, 0⟩).reverse.1.From = "EUR" ∧
      (sampleMarket ⟨20000, 0⟩).reverse.1.To = "BTC" ∧
      (sampleMarket ⟨20000, 0⟩).reverse.1.Price = ⟨500000000000, -16⟩ ∧
      (sampleMarket ⟨20000, 0⟩).reverse.1.Available = ⟨100000, -1⟩ ∧
      (sampleMarket ⟨20000, 0⟩).reverse.1.InOrder = ⟨20000, -1⟩) ∧
    (sampleMarket ⟨0, -2⟩).reverse.2 ≠ none := by
  constructor
  · have h := (reverse_fails_iff_zero_price (sampleMarket ⟨20000, 0⟩)).2 (by decide)
    obtain ⟨h1, h2, h3, h4, h5, _, _, _⟩ := h
    refine ⟨h1, h2, ?_, ?_, ?_⟩
    · rw [h3]; decide
    · rw [h4]; decide
    · rw [h5]; decide
  · exact (reverse_fails_iff_zero_price (sampleMarket ⟨0, -2⟩)).1.mpr
      (by simp [sampleMarket, Decimal.toRat])

/-! ## The ribbon trend -/

section TrendLoopFacts

variable {EMA : Type}

theorem TrendLoop_step_error (m : EMAMethods EMA) (emas : List EMA) (i : Nat) (hi : 1 ≤ i)
    (hlt : i < emas.length) (t : Trend) (log : List Nat) (e : String)
    (he : pairError m emas i = some e) :
    TrendLoop m emas i (emas.drop i) t log
      = ⟨Trend.UndefinedTrend, some (Error.external e), log ++ [i]⟩ := by
  have hprev : i - 1 < emas.length := by omega
  rw [List.drop_eq_getElem_cons hlt]
  unfold TrendLoop
  have h0 : i ≠ 0 := by omega
  simp only [h0, if_false, List.getElem?_eq_getElem hprev]
  simp only [pairError, List.getElem?_eq_getElem hlt, List.getElem?_eq_getElem hprev] at he
  cases hc : m.Compare emas[i] emas[i - 1] with
  | error e2 => rw [hc] at he; simp at he; simp [he]
  | ok r => rw [hc] at he; simp at he

theorem TrendLoop_step_agree (m : EMAMethods EMA) (emas : List EMA) (i : Nat) (hi : 2 ≤ i)
    (hlt : i < emas.length) (t : Trend) (log : List Nat)
    (he : pairTrend m emas i = some t) :
    TrendLoop m emas i (emas.drop i) t log
      = TrendLoop m emas (i + 1) (emas.drop (i + 1)) t (log ++ [i]) := by
  have hprev : i - 1 < emas.length := by omega
  rw [List.drop_eq_getElem_cons hlt]
  conv => lhs; unfold TrendLoop
  have h0 : i ≠ 0 := by omega
  have h1 : i ≠ 1 := by omega
  simp only [h0, if_false, List.getElem?_eq_getElem hprev]
  simp only [pairTrend, List.getElem?_eq_getElem hlt, List.getElem?_eq_getElem hprev] at he
  cases hc : m.Compare emas[i] emas[i - 1] with
  | error e2 => rw [hc] at he; simp at he
  | ok r =>
    obtain ⟨d, t2⟩ := r
    rw [hc] at he; simp at he
    subst he
    simp [h1]

theorem TrendLoop_step_differ (m : EMAMethods EMA) (emas : List EMA) (i : Nat) (hi : 2 ≤ i)
    (hlt : i < emas.length) (t t2 : Trend) (log : List Nat)
    (he : pairTrend m emas i = some t2) (hne : t2 ≠ t) :
    TrendLoop m emas i (emas.drop i) t log
      = ⟨Trend.IndecisiveTrend, none, log ++ [i]⟩ := by
  have hprev : i - 1 < emas.length := by omega
  rw [List.drop_eq_getElem_cons hlt]
  unfold TrendLoop
  have h0 : i ≠ 0 := by omega
  have h1 : i ≠ 1 := by omega
  have h2 : i > 1 := by omega
  simp only [h0, if_false, List.getElem?_eq_getElem hprev]
  simp only [pairTrend, List.getElem?_eq_getElem hlt, List.getElem?_eq_getElem hprev] at he
  cases hc : m.Compare emas[i] emas[i - 1] with
  | error e2 => rw [hc] at he; simp at he
  | ok r =>
    obtain ⟨d, t3⟩ := r
    rw [hc] at he; simp at he
    subst he
    simp [h1, h2, hne]

theorem TrendLoop_step_first (m : EMAMethods EMA) (emas : List EMA)
    (hlt : 1 < emas.length) (t0 t : Trend) (log : List Nat)
    (he : pairTrend m emas 1 = some t) :
    TrendLoop m emas 1 (emas.drop 1) t0 log
      = TrendLoop m emas 2 (emas.drop 2) t (log ++ [1]) := by
  have hprev : 0 < emas.length := by omega
  rw [List.drop_eq_getElem_cons hlt]
  conv => lhs; unfold TrendLoop
  simp only [pairTrend, List.getElem?_eq_getElem hlt, List.getElem?_eq_getElem hprev] at he
  simp only [one_ne_zero, if_false, Nat.sub_self, List.getElem?_eq_getElem hprev]
  cases hc : m.Compare emas[1] emas[0] with
  | error e2 => rw [hc] at he; simp at he
  | ok r =>
    obtain ⟨d, t2⟩ := r
    rw [hc] at he; simp at he
    subst he
    simp

theorem TrendLoop_step_zero (m : EMAMethods EMA) (emas : List EMA)
    (hlt : 0 < emas.length) (t0 : Trend) (log : List Nat) :
    TrendLoop m emas 0 emas t0 log = TrendLoop m emas 1 (emas.drop 1) t0 log := by
  cases emas with
  | nil => simp at hlt
  | cons a l => conv => lhs; unfold TrendLoop
                simp

theorem TrendLoop_end (m : EMAMethods EMA) (emas : List EMA) (i : Nat)
    (hge : emas.length ≤ i) (t : Trend) (log : List Nat) :
    TrendLoop m emas i (emas.drop i) t log = ⟨t, none, log⟩ := by
  rw [List.drop_of_length_le hge]
  unfold TrendLoop
  rfl

/-- While the pairs agree with the running direction the loop keeps going. -/
theorem TrendLoop_agree_run (m : EMAMethods EMA) (emas : List EMA) (t : Trend) (k : Nat)
    (hk : k ≤ emas.length) :
    ∀ (n i : Nat) (log : List Nat), 2 ≤ i → i + n = k →
      (∀ j, i ≤ j → j < k → pairTrend m emas j = some t) →
      TrendLoop m emas i (emas.drop i) t log
        = TrendLoop m emas k (emas.drop k) t (log ++ List.range' i n) := by
  intro n
  induction n with
  | zero =>
    intro i log _ hik _
    have : i = k := by omega
    subst this
    simp
  | succ n ih =>
    intro i log hi hik hall
    have hlt : i < emas.length := by omega
    rw [TrendLoop_step_agree m emas i hi hlt t log (hall i (le_refl _) (by omega))]
    rw [ih (i + 1) (log ++ [i]) (by omega) (by omega)
      (fun j hj hjk => hall j (by omega) hjk)]
    simp [List.range'_succ]

end TrendLoopFacts

section TrendFacts

variable {EMA : Type}

theorem Trend_enter (m : EMAMethods EMA) (bm : BvvMarket EMA) (rh : RibbonHandler EMA)
    (hrh : bm.rh = some rh) (hlen : 2 ≤ rh.members.length) :
    bm.Trend m = TrendLoop m rh.members 1 (rh.members.drop 1) Trend.BullTrend [] := by
  unfold BvvMarket.Trend
  rw [hrh]
  have : ¬ rh.members.length < 2 := by omega
  simp only [this, if_false]
  exact TrendLoop_step_zero m rh.members (by omega) _ _

/-- After a first pair of direction `first` and agreeing pairs up to `k`, the loop stands
at index `k` with `first` as running direction. -/
theorem Trend_agreeing_run (m : EMAMethods EMA) (bm : BvvMarket EMA) (rh : RibbonHandler EMA)
    (hrh : bm.rh = some rh) (first : Trend) (k : Nat) (hk2 : 2 ≤ k)
    (hk : k ≤ rh.members.length)
    (hall : ∀ j, 1 ≤ j → j < k → pairTrend m rh.members j = some first) :
    bm.Trend m
      = TrendLoop m rh.members k (rh.members.drop k) first (List.range' 1 (k - 1)) := by
  rw [Trend_enter m bm rh hrh (by omega)]
  rw [TrendLoop_step_first m rh.members (by omega) _ first [] (hall 1 (le_refl _) (by omega))]
  rw [TrendLoop_agree_run m rh.members first k hk (k - 2) 2 _ (le_refl _) (by omega)
    (fun j hj hjk => hall j (by omega) hjk)]
  congr 1
  have : k - 1 = (k - 2) + 1 := by omega
  rw [this, List.range'_succ]
  simp

/-- A failing comparison reached by the loop ends the call with its error. -/
theorem Trend_first_failure (m : EMAMethods EMA) (bm : BvvMarket EMA) (rh : RibbonHandler EMA)
    (hrh : bm.rh = some rh) (k : Nat) (hk1 : 1 ≤ k) (hk : k < rh.members.length)
    (e : String) (he : pairError m rh.members k = some e)
    (hall : ∀ j, 1 ≤ j → j < k →
      ∃ t, pairTrend m rh.members j = some t ∧ pairTrend m rh.members 1 = some t) :
    bm.Trend m = ⟨Trend.UndefinedTrend, some (Error.external e), List.range' 1 k⟩ := by
  by_cases h1 : k = 1
  · subst h1
    rw [Trend_enter m bm rh hrh (by omega)]
    rw [TrendLoop_step_error m rh.members 1 (le_refl _) hk _ _ e he]
    simp
  · obtain ⟨first, _, hfirst⟩ := hall 1 (le_refl _) (by omega)
    have hall2 : ∀ j, 1 ≤ j → j < k → pairTrend m rh.members j = some first := by
      intro j hj hjk
      obtain ⟨t, ht, ht1⟩ := hall j hj hjk
      rw [hfirst] at ht1
      rw [ht, ← Option.some.inj ht1]
    rw [Trend_agreeing_run m bm rh hrh first k (by omega) (by omega) hall2]
    rw [TrendLoop_step_error m rh.members k hk1 hk _ _ e he]
    congr 1
    have : k = (k - 1) + 1 := by omega
    conv => rhs; rw [this, List.range'_concat]
    simp
    omega

/-- A pair after the first that differs from it, reached by the loop, ends the call with
`IndecisiveTrend`. -/
theorem Trend_first_disagreement (m : EMAMethods EMA) (bm : BvvMarket EMA)
    (rh : RibbonHandler EMA) (hrh : bm.rh = some rh) (first t2 : Trend) (k : Nat)
    (hk2 : 2 ≤ k) (hk : k < rh.members.length)
    (hd : pairTrend m rh.members k = some t2) (hne : t2 ≠ first)
    (hall : ∀ j, 1 ≤ j → j < k → pairTrend m rh.members j = some first) :
    bm.Trend m = ⟨Trend.IndecisiveTrend, none, List.range' 1 k⟩ := by
  rw [Trend_agreeing_run m bm rh hrh first k hk2 (by omega) hall]
  rw [TrendLoop_step_differ m rh.members k hk2 hk first t2 _ hd hne]
  congr 1
  have : k = (k - 1) + 1 := by omega
  conv => rhs; rw [this, List.range'_concat]
  simp
  omega

/-- With every pair agreeing the loop runs to the end and returns the first direction. -/
theorem Trend_all_agree (m : EMAMethods EMA) (bm : BvvMarket EMA) (rh : RibbonHandler EMA)
    (hrh : bm.rh = some rh) (hlen : 2 ≤ rh.members.length) (first : Trend)
    (hall : ∀ j, 1 ≤ j → j < rh.members.length → pairTrend m rh.members j = some first) :
    bm.Trend m = ⟨first, none, List.range' 1 (rh.members.length - 1)⟩ := by
  rw [Trend_agreeing_run m bm rh hrh first rh.members.length hlen (le_refl _) hall]
  exact TrendLoop_end m rh.members _ (le_refl _) _ _

end TrendFacts

/-! ## Claims about `Trend` -/

/-- C1: when the ribbon has at least two members and every adjacent comparison succeeds,
`Trend` returns without error the direction of the first pair if every later pair has that
direction, and `IndecisiveTrend` if some later pair has another one. -/
theorem Trend_unanimous_or_indecisive {EMA : Type} (m : EMAMethods EMA) (bm : BvvMarket EMA)
    (rh : RibbonHandler EMA) (hrh : bm.rh = some rh) (hlen : 2 ≤ rh.members.length)
    (hall : ∀ i, 1 ≤ i → i < rh.members.length → (pairTrend m rh.members i).isSome = true) :
    ∃ first, pairTrend m rh.members 1 = some first ∧
      ((∀ i, 1 < i → i < rh.members.length → pairTrend m rh.members i = some first) →
        (bm.Trend m).trend = first ∧ (bm.Trend m).err = none) ∧
      ((∃ i, 1 < i ∧ i < rh.members.length ∧ pairTrend m rh.members i ≠ some first) →
        (bm.Trend m).trend = Trend.IndecisiveTrend ∧ (bm.Trend m).err = none) := by
  obtain ⟨first, h1⟩ := Option.isSome_iff_exists.mp (hall 1 (le_refl _) (by omega))
  refine ⟨first, h1, ?_, ?_⟩
  · intro hagree
    have hall2 : ∀ j, 1 ≤ j → j < rh.members.length → pairTrend m rh.members j = some first := by
      intro j hj hjn
      by_cases hj1 : j = 1
      · subst hj1; exact h1
      · exact hagree j (by omega) hjn
    rw [Trend_all_agree m bm rh hrh hlen first hall2]
    exact ⟨rfl, rfl⟩
  · intro hex
    classical
    have hk := Nat.find_spec hex
    have hmin := fun j => @Nat.find_min _ _ hex j
    generalize Nat.find hex = k at hk hmin
    obtain ⟨hk1, hkn, hkne⟩ := hk
    obtain ⟨t2, ht2⟩ := Option.isSome_iff_exists.mp (hall k (by omega) hkn)
    have hne : t2 ≠ first := by
      intro h; apply hkne; rw [ht2, h]
    have hall2 : ∀ j, 1 ≤ j → j < k → pairTrend m rh.members j = some first := by
      intro j hj hjk
      by_cases hj1 : j = 1
      · subst hj1; exact h1
      · by_contra hcon
        exact hmin j hjk ⟨by omega, by omega, hcon⟩
    rw [Trend_first_disagreement m bm rh hrh first t2 k (by omega) hkn ht2 hne hall2]
    exact ⟨rfl, rfl⟩

/-- C1, at the readings `[10, 12]` and `[10, 12, 9]` of the specification: the first ribbon
gives `BullTrend`, the second `IndecisiveTrend`. -/
theorem Trend_unanimous_or_indecisive_witness :
    ((sampleRibbon [10, 12]).Trend sampleMethods).trend = Trend.BullTrend ∧
    ((sampleRibbon [10, 12, 9]).Trend sampleMethods).trend = Trend.IndecisiveTrend := by
  constructor
  · obtain ⟨first, h1, hA, _⟩ := Trend_unanimous_or_indecisive sampleMethods
      (sampleRibbon [10, 12]) ⟨some [10, 12]⟩ rfl (by decide) (by decide)
    have hf : pairTrend sampleMethods [10, 12] 1 = some Trend.BullTrend := by decide
    have : first = Trend.BullTrend := by
      have h1b : pairTrend sampleMethods [10, 12] 1 = some first := h1
      rw [hf] at h1b; exact (Option.some.inj h1b).symm
    rw [← this]
    exact (hA (by intro i hi hlt; have hlt2 : i < 2 := hlt; omega)).1
  · obtain ⟨first, h1, _, hB⟩ := Trend_unanimous_or_indecisive sampleMethods
      (sampleRibbon [10, 12, 9]) ⟨some [10, 12, 9]⟩ rfl (by decide) (by decide)
    have hf : pairTrend sampleMethods [10, 12, 9] 1 = some Trend.BullTrend := by decide
    have : first = Trend.BullTrend := by
      have h1b : pairTrend sampleMethods [10, 12, 9] 1 = some first := h1
      rw [hf] at h1b; exact (Option.some.inj h1b).symm
    subst this
    exact (hB ⟨2, by decide, by decide, by decide⟩).1

/-- C2: a market without ribbon handler, or whose ribbon has fewer than two members,
gets `UndefinedTrend` together with an error from `Trend`, and no comparison is made. -/
theorem Trend_needs_two_members {EMA : Type} (m : EMAMethods EMA) (bm : BvvMarket EMA)
    (h : bm.rh = none ∨ ∃ rh, bm.rh = some rh ∧ rh.members.length < 2) :
    (bm.Trend m).trend = Trend.UndefinedTrend ∧
      (bm.Trend m).err = some Error.trendNeedsRibbon ∧
      (bm.Trend m).compared = [] := by
  unfold BvvMarket.Trend
  rcases h with h | ⟨rh, hrh, hlen⟩
  · rw [h]; exact ⟨rfl, rfl, rfl⟩
  · rw [hrh]; simp [hlen]

/-- C2, at a ribbon of one member. -/
theorem Trend_needs_two_members_witness :
    ((sampleRibbon [10]).Trend sampleMethods).trend = Trend.UndefinedTrend ∧
      ((sampleRibbon [10]).Trend sampleMethods).err = some Error.trendNeedsRibbon ∧
      ((sampleRibbon [10]).Trend sampleMethods).compared = [] :=
  Trend_needs_two_members sampleMethods (sampleRibbon [10])
    (Or.inr ⟨⟨some [10]⟩, rfl, by decide⟩)

/-- C3 as stated fails: in the ribbon `[10, 12, 9, 0]` the comparison of the last pair
fails, yet `Trend` returns `IndecisiveTrend` without error, having stopped at the second
pair. -/
theorem Trend_failure_after_disagreement :
    (sampleRibbon [10, 12, 9, 0]).rh = some ⟨some [10, 12, 9, 0]⟩ ∧
    2 ≤ (RibbonHandler.members (⟨some [10, 12, 9, 0]⟩ : RibbonHandler Nat)).length ∧
    pairError sampleMethods [10, 12, 9, 0] 3 = some "no data" ∧
    (sampleRibbon [10, 12, 9, 0]).Trend sampleMethods
      = ⟨Trend.IndecisiveTrend, none, [1, 2]⟩ := by
  decide

/-- C3, amended: when a comparison fails and every pair before it succeeded with the
direction of the first pair, `Trend` returns that error with `UndefinedTrend`; when a pair
after the first differs from it and every pair before succeeded with the first direction,
`Trend` returns `IndecisiveTrend` without error and compares nothing behind that pair. -/
theorem Trend_failure_or_disagreement_first {EMA : Type} (m : EMAMethods EMA)
    (bm : BvvMarket EMA) (rh : RibbonHandler EMA) (hrh : bm.rh = some rh)
    (k : Nat) (hk1 : 1 ≤ k) (hk : k < rh.members.length)
    (hbefore : ∀ j, 1 ≤ j → j < k →
      ∃ t, pairTrend m rh.members j = some t ∧ pairTrend m rh.members 1 = some t) :
    (∀ e, pairError m rh.members k = some e →
      bm.Trend m = ⟨Trend.UndefinedTrend, some (Error.external e), List.range' 1 k⟩) ∧
    (∀ t, 1 < k → pairTrend m rh.members k = some t → pairTrend m rh.members 1 ≠ some t →
      bm.Trend m = ⟨Trend.IndecisiveTrend, none, List.range' 1 k⟩) := by
  constructor
  · intro e he
    exact Trend_first_failure m bm rh hrh k hk1 hk e he hbefore
  · intro t2 hk2 hd hne
    obtain ⟨first, _, hfirst⟩ := hbefore 1 (le_refl _) hk2
    have hall2 : ∀ j, 1 ≤ j → j < k → pairTrend m rh.members j = some first := by
      intro j hj hjk
      obtain ⟨t, ht, ht1⟩ := hbefore j hj hjk
      rw [hfirst] at ht1
      rw [ht, ← Option.some.inj ht1]
    have hne2 : t2 ≠ first := by
      intro h; apply hne; rw [hfirst, h]
    exact Trend_first_disagreement m bm rh hrh first t2 k (by omega) hk hd hne2 hall2

/-- C3 amended, at the ribbon `[10, 12, 13, 0]`: the first two pairs rise, the third
comparison fails, and `Trend` returns its error with `UndefinedTrend`. -/
theorem Trend_failure_or_disagreement_first_witness :
    (sampleRibbon [10, 12, 13, 0]).Trend sampleMethods
      = ⟨Trend.UndefinedTrend, some (Error.external "no data"), [1, 2, 3]⟩ :=
  (Trend_failure_or_disagreement_first sampleMethods (sampleRibbon [10, 12, 13, 0])
    ⟨some [10, 12, 13, 0]⟩ rfl 3 (by decide) (by decide)
    (by
      intro j hj hjk
      refine ⟨Trend.BullTrend, ?_, by decide⟩
      interval_cases j <;> decide)).1 "no data" (by decide)

/-! ## The paths through `NewBvvMarket` -/

section NewBvvMarketFacts

variable {EMA : Type}

theorem heap_lookup_fst {α : Type} (heap : List α) (x y : α) :
    (heap ++ [x, y])[heap.length]? = some x := by
  rw [List.getElem?_append_right (le_refl _)]; simp

theorem heap_lookup_snd {α : Type} (heap : List α) (x y : α) :
    (heap ++ [x, y])[heap.length + 1]? = some y := by
  rw [List.getElem?_append_right (by omega)]; simp

theorem heap_lookup_old {α : Type} (heap : List α) (x y : α) (i : Nat)
    (h : i < heap.length) : (heap ++ [x, y])[i]? = heap[i]? := by
  rw [List.getElem?_append_left h]

theorem attachRibbon_fields (ext : Collaborators EMA) (market mk : BvvMarket EMA)
    (config : bvvMarketConfig) (h : attachRibbon ext market config = .ok mk) :
    mk = { market with rh := mk.rh } := by
  unfold attachRibbon at h
  split at h
  · split at h
    · cases h
    · cases h; rfl
  · cases h; rfl

theorem setBounds_fst_Name (decMin decMax : Decimal) (market inverse : BvvMarket EMA) :
    (setBounds decMin decMax market inverse).1.Name = market.Name := by
  unfold setBounds; split <;> rfl

theorem setBounds_snd_Name (decMin decMax : Decimal) (market inverse : BvvMarket EMA) :
    (setBounds decMin decMax market inverse).2.Name = inverse.Name := by
  unfold setBounds; split <;> rfl

/-- The market and the inverse that `NewBvvMarket` builds from the parsed inputs, before
the bounds are written. -/
theorem NewBvvMarket_registers (ext : Collaborators EMA) (heap : List (BvvMarket EMA))
    (bh : BvvHandler) (symbol fiatSymbol available inOrder : String)
    (config : bvvMarketConfig) (a o price : Decimal) (mk : BvvMarket EMA)
    (hcfg : bh.config.Markets symbol = some config)
    (ha : ext.NewFromString available = .ok a)
    (ho : ext.NewFromString inOrder = .ok o)
    (hr : attachRibbon ext (marketShell symbol fiatSymbol config a o) config = .ok mk)
    (hp : bh.prices (symbol ++ "-" ++ fiatSymbol) = some price)
    (hz : price.Equal (Decimal.NewFromInt32 0) = false) :
    NewBvvMarket ext heap bh symbol fiatSymbol available inOrder =
      (let decMin := parseMin ext config
       let decMax := parseMax ext config decMin
       let market : BvvMarket EMA :=
         { mk with Price := price, inverse := some (heap.length + 1) }
       let inverse : BvvMarket EMA :=
         { (BvvMarket.zero : BvvMarket EMA) with
             From := fiatSymbol, To := symbol, Price := (Decimal.NewFromInt32 1).Div price,
             Available := price.Mul a, InOrder := price.Mul o, inverse := some heap.length }
       let bounded := setBounds decMin decMax market inverse
       ⟨bounded.1, none,
        { bh with markets := mapSet (mapSet bh.markets (symbol ++ "-" ++ fiatSymbol) heap.length)
                    (fiatSymbol ++ "-" ++ symbol) (heap.length + 1) },
        heap ++ [bounded.1, bounded.2]⟩) := by
  have hmk := attachRibbon_fields ext _ mk config hr
  have hname : mk.Name = symbol ++ "-" ++ fiatSymbol := by
    rw [hmk]; rfl
  have hFrom : mk.From = symbol := by rw [hmk]; rfl
  have hTo : mk.To = fiatSymbol := by rw [hmk]; rfl
  have hAv : mk.Available = a := by rw [hmk]; rfl
  have hIo : mk.InOrder = o := by rw [hmk]; rfl
  have hrev : ({ mk with Price := price } : BvvMarket EMA).reverse
      = ({ (BvvMarket.zero : BvvMarket EMA) with
             From := fiatSymbol, To := symbol, Price := (Decimal.NewFromInt32 1).Div price,
             Available := price.Mul a, InOrder := price.Mul o }, none) := by
    simp only [BvvMarket.reverse, hz, BvvMarket.exchange, hFrom, hTo, hAv, hIo]
    rfl
  unfold NewBvvMarket
  simp only [hcfg, ha, ho, hr, BvvMarket.setPrice, hname, hp, hrev, setBounds_fst_Name,
    setBounds_snd_Name]
  simp only [BvvMarket.Name, hFrom, hTo]

/-- The three ways a call of `NewBvvMarket` ends: with an error, with the empty market and
no error because the ribbon handler could not be built, or with the registration. -/
theorem NewBvvMarket_cases (ext : Collaborators EMA) (heap : List (BvvMarket EMA))
    (bh : BvvHandler) (symbol fiatSymbol available inOrder : String) :
    ((NewBvvMarket ext heap bh symbol fiatSymbol available inOrder).err ≠ none ∧
      (NewBvvMarket ext heap bh symbol fiatSymbol available inOrder).market = BvvMarket.zero ∧
      (NewBvvMarket ext heap bh symbol fiatSymbol available inOrder).bh = bh ∧
      (NewBvvMarket ext heap bh symbol fiatSymbol available inOrder).heap = heap) ∨
    ((NewBvvMarket ext heap bh symbol fiatSymbol available inOrder).err = none ∧
      (NewBvvMarket ext heap bh symbol fiatSymbol available inOrder).market = BvvMarket.zero ∧
      (NewBvvMarket ext heap bh symbol fiatSymbol available inOrder).bh = bh ∧
      (NewBvvMarket ext heap bh symbol fiatSymbol available inOrder).heap = heap ∧
      ∃ config a o e, bh.config.Markets symbol = some config ∧
        ext.NewFromString available = .ok a ∧ ext.NewFromString inOrder = .ok o ∧
        attachRibbon ext (marketShell symbol fiatSymbol config a o) config = .error e) ∨
    (∃ config a o price mk, bh.config.Markets symbol = some config ∧
        ext.NewFromString available = .ok a ∧ ext.NewFromString inOrder = .ok o ∧
        attachRibbon ext (marketShell symbol fiatSymbol config a o) config = .ok mk ∧
        bh.prices (symbol ++ "-" ++ fiatSymbol) = some price ∧
        price.Equal (Decimal.NewFromInt32 0) = false) := by
  cases hcfg : bh.config.Markets symbol with
  | none => left; unfold NewBvvMarket; simp [hcfg]
  | some config =>
    cases ha : ext.NewFromString available with
    | error e => left; unfold NewBvvMarket; simp [hcfg, ha]
    | ok a =>
      cases ho : ext.NewFromString inOrder with
      | error e => left; unfold NewBvvMarket; simp [hcfg, ha, ho]
      | ok o =>
        cases hr : attachRibbon ext (marketShell symbol fiatSymbol config a o) config with
        | error e =>
          right; left
          refine ⟨?_, ?_, ?_, ?_, config, a, o, e, rfl, rfl, rfl, hr⟩ <;>
            (unfold NewBvvMarket; simp [hcfg, ha, ho, hr])
        | ok mk =>
          have hmk := attachRibbon_fields ext _ mk config hr
          have hname : mk.Name = symbol ++ "-" ++ fiatSymbol := by rw [hmk]; rfl
          cases hp : bh.prices (symbol ++ "-" ++ fiatSymbol) with
          | none =>
            left; unfold NewBvvMarket
            simp [hcfg, ha, ho, hr, BvvMarket.setPrice, hname, hp]
          | some price =>
            cases hz : price.Equal (Decimal.NewFromInt32 0) with
            | true =>
              left
              have hrev : ({ mk with Price := price } : BvvMarket EMA).reverse
                  = (BvvMarket.zero, some Error.zeroPrice) := by
                simp only [BvvMarket.reverse, hz, if_true]
              unfold NewBvvMarket
              simp [hcfg, ha, ho, hr, BvvMarket.setPrice, hname, hp, hrev]
            | false =>
              right; right
              exact ⟨config, a, o, price, mk, rfl, rfl, rfl, hr, rfl, hz⟩

theorem parseMin_nonneg (ext : Collaborators EMA) (config : bvvMarketConfig) :
    0 ≤ (parseMin ext config).toRat := by
  unfold parseMin
  split
  · rw [Decimal.toRat_Zero]
  · rename_i d _
    split
    · rw [Decimal.toRat_Zero]
    · rename_i hlt
      have := (Decimal.LessThan_iff d Decimal.Zero).not.mp hlt
      rw [Decimal.toRat_Zero] at this
      exact not_lt.mp this

/-- The configurations that switch the bounds off. -/
theorem bounds_disabled (ext : Collaborators EMA) (config : bvvMarketConfig)
    (h : (∃ e, ext.NewFromString config.MinLevel = .error e) ∨
      (∃ d, ext.NewFromString config.MinLevel = .ok d ∧ d.toRat ≤ 0) ∨
      (∃ e, ext.NewFromString config.MaxLevel = .error e) ∨
      (∃ d, ext.NewFromString config.MaxLevel = .ok d ∧ d.toRat ≤ 0) ∨
      (∃ d, ext.NewFromString config.MaxLevel = .ok d ∧
        d.toRat < (parseMin ext config).toRat)) :
    ((parseMin ext config).Equal Decimal.Zero
      || (parseMax ext config (parseMin ext config)).Equal Decimal.Zero) = true := by
  rw [Bool.or_eq_true, Decimal.Equal_Zero_iff, Decimal.Equal_Zero_iff]
  have hnn := parseMin_nonneg ext config
  rcases h with ⟨e, he⟩ | ⟨d, hd, hle⟩ | ⟨e, he⟩ | ⟨d, hd, hle⟩ | ⟨d, hd, hlt⟩
  · left; simp only [parseMin, he, Decimal.toRat_Zero]
  · left
    have : (parseMin ext config).toRat ≤ 0 := by
      simp only [parseMin, hd]
      split
      · rw [Decimal.toRat_Zero]
      · exact hle
    exact le_antisymm this hnn
  · right; simp only [parseMax, he, Decimal.toRat_Zero]
  · right
    simp only [parseMax, hd]
    split
    · rw [Decimal.toRat_Zero]
    · rename_i hnlt
      have := (Decimal.LessThan_iff d (parseMin ext config)).not.mp hnlt
      have h2 : (parseMin ext config).toRat ≤ d.toRat := not_lt.mp this
      exact le_antisymm hle (le_trans hnn h2)
  · right
    have := (Decimal.LessThan_iff d (parseMin ext config)).mpr hlt
    simp only [parseMax, hd, this, if_true, Decimal.toRat_Zero]

/-- The configurations that keep the bounds: both levels parse, `0 < min ≤ max`. -/
theorem bounds_enabled (ext : Collaborators EMA) (config : bvvMarketConfig)
    (min max : Decimal) (hmin : ext.NewFromString config.MinLevel = .ok min)
    (hpos : 0 < min.toRat) (hmax : ext.NewFromString config.MaxLevel = .ok max)
    (hle : min.toRat ≤ max.toRat) :
    parseMin ext config = min ∧ parseMax ext config (parseMin ext config) = max ∧
    ((parseMin ext config).Equal Decimal.Zero
      || (parseMax ext config (parseMin ext config)).Equal Decimal.Zero) = false := by
  have h1 : parseMin ext config = min := by
    have hn : ¬ min.LessThan Decimal.Zero = true := by
      rw [Decimal.LessThan_iff, Decimal.toRat_Zero]; exact not_lt.mpr (le_of_lt hpos)
    simp [parseMin, hmin, hn]
  have h2 : parseMax ext config (parseMin ext config) = max := by
    have hn : ¬ max.LessThan min = true := by
      rw [Decimal.LessThan_iff]; exact not_lt.mpr hle
    rw [h1]; simp [parseMax, hmax, hn]
  refine ⟨h1, h2, ?_⟩
  rw [h2, h1, Bool.or_eq_false_iff]
  constructor
  · rw [← Bool.not_eq_true, Decimal.Equal_Zero_iff]; exact ne_of_gt hpos
  · rw [← Bool.not_eq_true, Decimal.Equal_Zero_iff]
    exact ne_of_gt (lt_of_lt_of_le hpos hle)

theorem setBounds_disabled (decMin decMax : Decimal) (market inverse : BvvMarket EMA)
    (h : (decMin.Equal Decimal.Zero || decMax.Equal Decimal.Zero) = true) :
    setBounds decMin decMax market inverse
      = ({ market with Max := Decimal.Zero, Min := Decimal.Zero },
         { inverse with Max := Decimal.Zero, Min := Decimal.Zero }) := by
  unfold setBounds; rw [if_pos h]

theorem setBounds_enabled (decMin decMax : Decimal) (market inverse : BvvMarket EMA)
    (h : (decMin.Equal Decimal.Zero || decMax.Equal Decimal.Zero) = false) :
    setBounds decMin decMax market inverse
      = ({ market with Max := inverse.Price.Mul decMax, Min := inverse.Price.Mul decMin },
         { inverse with Max := decMax, Min := decMin }) := by
  unfold setBounds; rw [if_neg (by rw [h]; decide)]; rfl

end NewBvvMarketFacts

/-! ## Claims about `NewBvvMarket`: the early returns -/

/-- C8: for a symbol absent from the configuration's `Markets`, `NewBvvMarket` returns the
error built by `newMarketNotInConfigError`, whatever the balance strings and the price
table are, and leaves the registry as it was. -/
theorem NewBvvMarket_symbol_not_configured {EMA : Type} (ext : Collaborators EMA)
    (heap : List (BvvMarket EMA)) (bh : BvvHandler)
    (symbol fiatSymbol available inOrder : String)
    (h : bh.config.Markets symbol = none) :
    (NewBvvMarket ext heap bh symbol fiatSymbol available inOrder).err
        = some (Error.MarketNotInConfigError symbol) ∧
      (NewBvvMarket ext heap bh symbol fiatSymbol available inOrder).market = BvvMarket.zero ∧
      (NewBvvMarket ext heap bh symbol fiatSymbol available inOrder).bh.markets = bh.markets ∧
      (NewBvvMarket ext heap bh symbol fiatSymbol available inOrder).heap = heap := by
  unfold NewBvvMarket
  simp [h, newMarketNotInConfigError]

/-- C8, at the symbol `DOGE`, which the sample configuration does not list. -/
theorem NewBvvMarket_symbol_not_configured_witness :
    (NewBvvMarket sampleExt [] sampleHandler "DOGE" "EUR" "0.5" "0.1").err
        = some (Error.MarketNotInConfigError "DOGE") ∧
      (NewBvvMarket sampleExt [] sampleHandler "DOGE" "EUR" "0.5" "0.1").market
        = BvvMarket.zero ∧
      (NewBvvMarket sampleExt [] sampleHandler "DOGE" "EUR" "0.5" "0.1").bh.markets
        = sampleHandler.markets ∧
      (NewBvvMarket sampleExt [] sampleHandler "DOGE" "EUR" "0.5" "0.1").heap = [] :=
  NewBvvMarket_symbol_not_configured sampleExt [] sampleHandler "DOGE" "EUR" "0.5" "0.1"
    (by decide)

/-- C9: for a configured symbol, when the available string or the inOrder string does not
parse, `NewBvvMarket` returns an error naming that string and leaves the registry as it
was, whatever the bounds in the configuration and the price table are. -/
theorem NewBvvMarket_balance_not_decimal {EMA : Type} (ext : Collaborators EMA)
    (heap : List (BvvMarket EMA)) (bh : BvvHandler)
    (symbol fiatSymbol available inOrder : String) (config : bvvMarketConfig)
    (hcfg : bh.config.Markets symbol = some config)
    (h : (∃ e, ext.NewFromString available = .error e) ∨
      (∃ e, ext.NewFromString inOrder = .error e)) :
    (∃ e, (NewBvvMarket ext heap bh symbol fiatSymbol available inOrder).err
          = some (Error.availableNotDecimal available e) ∨
        (NewBvvMarket ext heap bh symbol fiatSymbol available inOrder).err
          = some (Error.inOrderNotDecimal inOrder e)) ∧
      (NewBvvMarket ext heap bh symbol fiatSymbol available inOrder).market = BvvMarket.zero ∧
      (NewBvvMarket ext heap bh symbol fiatSymbol available inOrder).bh.markets = bh.markets ∧
      (NewBvvMarket ext heap bh symbol fiatSymbol available inOrder).heap = heap := by
  cases ha : ext.NewFromString available with
  | error e =>
    unfold NewBvvMarket
    simp [hcfg, ha]
  | ok a =>
    rcases h with ⟨e, he⟩ | ⟨e, he⟩
    · rw [ha] at he; cases he
    · unfold NewBvvMarket
      simp [hcfg, ha, he]

/-- C9, at `available = "abc"`. -/
theorem NewBvvMarket_balance_not_decimal_witness :
    (∃ e, (NewBvvMarket sampleExt [] sampleHandler "BTC" "EUR" "abc" "0.1").err
          = some (Error.availableNotDecimal "abc" e) ∨
        (NewBvvMarket sampleExt [] sampleHandler "BTC" "EUR" "abc" "0.1").err
          = some (Error.inOrderNotDecimal "0.1" e)) ∧
      (NewBvvMarket sampleExt [] sampleHandler "BTC" "EUR" "abc" "0.1").market
        = BvvMarket.zero ∧
      (NewBvvMarket sampleExt [] sampleHandler "BTC" "EUR" "abc" "0.1").bh.markets
        = sampleHandler.markets ∧
      (NewBvvMarket sampleExt [] sampleHandler "BTC" "EUR" "abc" "0.1").heap = [] :=
  NewBvvMarket_balance_not_decimal sampleExt [] sampleHandler "BTC" "EUR" "abc" "0.1"
    ⟨"100", "1000", ⟨false, []⟩⟩ (by decide) (Or.inl ⟨"cannot convert to decimal", rfl⟩)

/-- C10: for a configured symbol whose balances parse and whose ribbon is disabled or was
built, a price table without an entry for `symbol-fiatSymbol` makes `NewBvvMarket`
return an error, and the registry stays as it was. -/
theorem NewBvvMarket_price_not_found {EMA : Type} (ext : Collaborators EMA)
    (heap : List (BvvMarket EMA)) (bh : BvvHandler)
    (symbol fiatSymbol available inOrder : String) (config : bvvMarketConfig)
    (a o : Decimal)
    (hcfg : bh.config.Markets symbol = some config)
    (ha : ext.NewFromString available = .ok a)
    (ho : ext.NewFromString inOrder = .ok o)
    (hrib : config.RibbonConfig.Enabled = false ∨
      ∃ rh, ext.NewRibbonHandler (marketShell symbol fiatSymbol config a o)
        config.RibbonConfig = .ok rh)
    (hp : bh.prices (symbol ++ "-" ++ fiatSymbol) = none) :
    (NewBvvMarket ext heap bh symbol fiatSymbol available inOrder).err
        = some (Error.priceNotFound (symbol ++ "-" ++ fiatSymbol)) ∧
      (NewBvvMarket ext heap bh symbol fiatSymbol available inOrder).market = BvvMarket.zero ∧
      (NewBvvMarket ext heap bh symbol fiatSymbol available inOrder).bh.markets = bh.markets ∧
      (NewBvvMarket ext heap bh symbol fiatSymbol available inOrder).heap = heap := by
  have hr : ∃ mk, attachRibbon ext (marketShell symbol fiatSymbol config a o) config
      = .ok mk := by
    unfold attachRibbon
    rcases hrib with hoff | ⟨rh, hrh⟩
    · simp [hoff]
    · rw [hrh]; split <;> simp
  obtain ⟨mk, hr⟩ := hr
  have hmk := attachRibbon_fields ext _ mk config hr
  have hname : mk.Name = symbol ++ "-" ++ fiatSymbol := by rw [hmk]; rfl
  unfold NewBvvMarket
  simp [hcfg, ha, ho, hr, BvvMarket.setPrice, hname, hp]

/-- C10, at the symbol `LTC`, which is configured without ribbon and has no price. -/
theorem NewBvvMarket_price_not_found_witness :
    (NewBvvMarket sampleExt [] sampleHandler "LTC" "EUR" "0.5" "0.1").err
        = some (Error.priceNotFound "LTC-EUR") ∧
      (NewBvvMarket sampleExt [] sampleHandler "LTC" "EUR" "0.5" "0.1").market
        = BvvMarket.zero ∧
      (NewBvvMarket sampleExt [] sampleHandler "LTC" "EUR" "0.5" "0.1").bh.markets
        = sampleHandler.markets ∧
      (NewBvvMarket sampleExt [] sampleHandler "LTC" "EUR" "0.5" "0.1").heap = [] :=
  NewBvvMarket_price_not_found sampleExt [] sampleHandler "LTC" "EUR" "0.5" "0.1"
    ⟨"100", "1000", ⟨false, []⟩⟩ ⟨5, -1⟩ ⟨1, -1⟩ (by decide) rfl rfl
    (Or.inl (by decide)) (by decide)

/-! ## Claims about `NewBvvMarket`: bounds and registration -/

/-- The bounds switched off, away from the return of line 75: when `minLevel` does not parse or parses to a value `≤ 0`, or `maxLevel` does not
parse, parses to a value `≤ 0` or parses below the clamped minimum, every call that returns
without error leaves the bounds at zero: `Min` and `Max` of the returned market denote `0`,
and so do `Min` and `Max` of its inverse.  No error comes from the bounds: with balances
that parse, a ribbon that is disabled or built and a non-zero price in the table, the call
returns without error a market that has its inverse. -/
theorem NewBvvMarket_bounds_disabled {EMA : Type} (ext : Collaborators EMA)
    (heap : List (BvvMarket EMA)) (bh : BvvHandler)
    (symbol fiatSymbol available inOrder : String) (config : bvvMarketConfig)
    (hcfg : bh.config.Markets symbol = some config)
    (hdis : (∃ e, ext.NewFromString config.MinLevel = .error e) ∨
      (∃ d, ext.NewFromString config.MinLevel = .ok d ∧ d.toRat ≤ 0) ∨
      (∃ e, ext.NewFromString config.MaxLevel = .error e) ∨
      (∃ d, ext.NewFromString config.MaxLevel = .ok d ∧ d.toRat ≤ 0) ∨
      (∃ d, ext.NewFromString config.MaxLevel = .ok d ∧
        d.toRat < (parseMin ext config).toRat)) :
    ((NewBvvMarket ext heap bh symbol fiatSymbol available inOrder).err = none →
      (NewBvvMarket ext heap bh symbol fiatSymbol available inOrder).market.Min.toRat = 0 ∧
      (NewBvvMarket ext heap bh symbol fiatSymbol available inOrder).market.Max.toRat = 0 ∧
      ∀ q, (NewBvvMarket ext heap bh symbol fiatSymbol available inOrder).market.inverse
          = some q →
        ∃ inv, (NewBvvMarket ext heap bh symbol fiatSymbol available inOrder).heap[q]?
            = some inv ∧ inv.Min.toRat = 0 ∧ inv.Max.toRat = 0) ∧
    (∀ a o mk price, ext.NewFromString available = .ok a →
      ext.NewFromString inOrder = .ok o →
      attachRibbon ext (marketShell symbol fiatSymbol config a o) config = .ok mk →
      bh.prices (symbol ++ "-" ++ fiatSymbol) = some price → price.toRat ≠ 0 →
      (NewBvvMarket ext heap bh symbol fiatSymbol available inOrder).err = none ∧
      (NewBvvMarket ext heap bh symbol fiatSymbol available inOrder).market.inverse
        = some (heap.length + 1)) := by
  have hoff := bounds_disabled ext config hdis
  constructor
  · intro herr
    rcases NewBvvMarket_cases ext heap bh symbol fiatSymbol available inOrder with
      ⟨hne, _⟩ | ⟨_, hm, _, _, _⟩ | ⟨config2, a, o, price, mk, hcfg2, ha, ho, hr, hp, hz⟩
    · exact absurd herr hne
    · rw [hm]
      refine ⟨by simp [BvvMarket.zero, Decimal.toRat], by simp [BvvMarket.zero, Decimal.toRat],
        ?_⟩
      intro q hq
      simp [BvvMarket.zero] at hq
    · rw [hcfg] at hcfg2
      cases hcfg2
      rw [NewBvvMarket_registers ext heap bh symbol fiatSymbol available inOrder config a o
        price mk hcfg ha ho hr hp hz]
      simp only [setBounds_disabled _ _ _ _ hoff]
      refine ⟨Decimal.toRat_Zero, Decimal.toRat_Zero, ?_⟩
      intro q hq
      cases hq
      exact ⟨_, heap_lookup_snd heap _ _, Decimal.toRat_Zero, Decimal.toRat_Zero⟩
  · intro a o mk price ha ho hr hp hz
    have hz2 : price.Equal (Decimal.NewFromInt32 0) = false := by
      rw [← Bool.not_eq_true, Decimal.Equal_zero_iff]; exact hz
    rw [NewBvvMarket_registers ext heap bh symbol fiatSymbol available inOrder config a o
      price mk hcfg ha ho hr hp hz2]
    simp only [setBounds_disabled _ _ _ _ hoff]
    exact ⟨trivial, trivial⟩

/-- The bounds switched off, at the symbol `ETH`, whose lower bound is configured as `-5`: the call succeeds and
all four bounds denote zero. -/
theorem NewBvvMarket_bounds_disabled_witness :
    (NewBvvMarket sampleExt [] sampleHandler "ETH" "EUR" "0.5" "0.1").err = none ∧
    (NewBvvMarket sampleExt [] sampleHandler "ETH" "EUR" "0.5" "0.1").market.Min.toRat = 0 ∧
    (NewBvvMarket sampleExt [] sampleHandler "ETH" "EUR" "0.5" "0.1").market.Max.toRat = 0 ∧
    ∃ inv, (NewBvvMarket sampleExt [] sampleHandler "ETH" "EUR" "0.5" "0.1").heap[1]?
        = some inv ∧ inv.Min.toRat = 0 ∧ inv.Max.toRat = 0 := by
  have h := NewBvvMarket_bounds_disabled sampleExt [] sampleHandler "ETH" "EUR" "0.5" "0.1"
    ⟨"-5", "1000", ⟨false, []⟩⟩ (by decide)
    (Or.inr (Or.inl ⟨⟨-5, 0⟩, rfl, by simp [Decimal.toRat]⟩))
  obtain ⟨herr, hinv⟩ := h.2 ⟨5, -1⟩ ⟨1, -1⟩ _ ⟨2000, 0⟩ rfl rfl rfl (by decide)
    (by simp [Decimal.toRat])
  obtain ⟨h1, h2, h3⟩ := h.1 herr
  exact ⟨herr, h1, h2, h3 1 hinv⟩

/-- The bounds projected, away from the return of line 75: when `minLevel` parses to `min > 0` and `maxLevel` parses to `max ≥ min`, every
call that returns without error leaves the configured values on the inverse of the market,
`inverse.Min = min` and `inverse.Max = max`, and their projection through the inverse price
on the market, `market.Min = inverse.Price * min` and `market.Max = inverse.Price * max`.
With balances that parse, a ribbon that is disabled or built and a non-zero price in the
table, the call returns without error a market that has its inverse. -/
theorem NewBvvMarket_bounds_projected {EMA : Type} (ext : Collaborators EMA)
    (heap : List (BvvMarket EMA)) (bh : BvvHandler)
    (symbol fiatSymbol available inOrder : String) (config : bvvMarketConfig)
    (min max : Decimal)
    (hcfg : bh.config.Markets symbol = some config)
    (hmin : ext.NewFromString config.MinLevel = .ok min) (hpos : 0 < min.toRat)
    (hmax : ext.NewFromString config.MaxLevel = .ok max) (hle : min.toRat ≤ max.toRat) :
    ((NewBvvMarket ext heap bh symbol fiatSymbol available inOrder).err = none →
      ∀ q, (NewBvvMarket ext heap bh symbol fiatSymbol available inOrder).market.inverse
          = some q →
        ∃ inv, (NewBvvMarket ext heap bh symbol fiatSymbol available inOrder).heap[q]?
            = some inv ∧ inv.Min = min ∧ inv.Max = max ∧
          (NewBvvMarket ext heap bh symbol fiatSymbol available inOrder).market.Min
            = inv.Price.Mul min ∧
          (NewBvvMarket ext heap bh symbol fiatSymbol available inOrder).market.Max
            = inv.Price.Mul max ∧
          (NewBvvMarket ext heap bh symbol fiatSymbol available inOrder).market.Min.toRat
            = inv.Price.toRat * min.toRat ∧
          (NewBvvMarket ext heap bh symbol fiatSymbol available inOrder).market.Max.toRat
            = inv.Price.toRat * max.toRat) ∧
    (∀ a o mk price, ext.NewFromString available = .ok a →
      ext.NewFromString inOrder = .ok o →
      attachRibbon ext (marketShell symbol fiatSymbol config a o) config = .ok mk →
      bh.prices (symbol ++ "-" ++ fiatSymbol) = some price → price.toRat ≠ 0 →
      (NewBvvMarket ext heap bh symbol fiatSymbol available inOrder).err = none ∧
      (NewBvvMarket ext heap bh symbol fiatSymbol available inOrder).market.inverse
        = some (heap.length + 1)) := by
  obtain ⟨hm1, hm2, hon⟩ := bounds_enabled ext config min max hmin hpos hmax hle
  constructor
  · intro herr q hq
    rcases NewBvvMarket_cases ext heap bh symbol fiatSymbol available inOrder with
      ⟨hne, _⟩ | ⟨_, hm, _, _, _⟩ | ⟨config2, a, o, price, mk, hcfg2, ha, ho, hr, hp, hz⟩
    · exact absurd herr hne
    · rw [hm] at hq
      simp [BvvMarket.zero] at hq
    · rw [hcfg] at hcfg2
      cases hcfg2
      rw [NewBvvMarket_registers ext heap bh symbol fiatSymbol available inOrder config a o
        price mk hcfg ha ho hr hp hz] at hq ⊢
      simp only [setBounds_enabled _ _ _ _ hon] at hq ⊢
      cases hq
      rw [hm2, hm1]
      exact ⟨_, heap_lookup_snd heap _ _, rfl, rfl, rfl, rfl, Decimal.toRat_Mul _ _,
        Decimal.toRat_Mul _ _⟩
  · intro a o mk price ha ho hr hp hz
    have hz2 : price.Equal (Decimal.NewFromInt32 0) = false := by
      rw [← Bool.not_eq_true, Decimal.Equal_zero_iff]; exact hz
    rw [NewBvvMarket_registers ext heap bh symbol fiatSymbol available inOrder config a o
      price mk hcfg ha ho hr hp hz2]
    simp only [setBounds_enabled _ _ _ _ hon]
    exact ⟨trivial, trivial⟩

/-- The bounds projected, at the configuration of the specification (price `20000`, bounds `100` and `1000`):
the inverse keeps `100` and `1000` and has price `0.00005`, the market gets `0.005` and
`0.05`. -/
theorem NewBvvMarket_bounds_projected_witness :
    (NewBvvMarket sampleExt [] sampleHandler "BTC" "EUR" "0.5" "0.1").err = none ∧
    ∃ inv, (NewBvvMarket sampleExt [] sampleHandler "BTC" "EUR" "0.5" "0.1").heap[1]?
        = some inv ∧ inv.Min = ⟨100, 0⟩ ∧ inv.Max = ⟨1000, 0⟩ ∧
      inv.Price.toRat = 5 / 100000 ∧
      (NewBvvMarket sampleExt [] sampleHandler "BTC" "EUR" "0.5" "0.1").market.Min.toRat
        = 5 / 1000 ∧
      (NewBvvMarket sampleExt [] sampleHandler "BTC" "EUR" "0.5" "0.1").market.Max.toRat
        = 5 / 100 := by
  have h := NewBvvMarket_bounds_projected sampleExt [] sampleHandler "BTC" "EUR" "0.5" "0.1"
    ⟨"100", "1000", ⟨false, []⟩⟩ ⟨100, 0⟩ ⟨1000, 0⟩ (by decide) rfl
    (by simp [Decimal.toRat]) rfl (by simp only [Decimal.toRat]; norm_num)
  obtain ⟨herr, hinv⟩ := h.2 ⟨5, -1⟩ ⟨1, -1⟩ _ ⟨20000, 0⟩ rfl rfl rfl (by decide)
    (by simp [Decimal.toRat])
  obtain ⟨inv, hq, h1, h2, _, _, h5, h6⟩ := h.1 herr 1 hinv
  have hprice : inv.Price = ⟨500000000000, -16⟩ := by
    have hq2 : (NewBvvMarket sampleExt [] sampleHandler "BTC" "EUR" "0.5" "0.1").heap[1]?
        = some ⟨"EUR", "BTC", false, bvvMarketConfig.zero, some 0, ⟨100000, -1⟩,
            ⟨20000, -1⟩, ⟨500000000000, -16⟩, ⟨100, 0⟩, ⟨1000, 0⟩, none⟩ := by decide
    rw [hq2] at hq
    cases hq
    rfl
  have hpr : inv.Price.toRat = 5 / 100000 := by
    rw [hprice]; simp only [Decimal.toRat]; norm_num
  refine ⟨herr, inv, hq, h1, h2, hpr, ?_, ?_⟩
  · rw [h5, hpr]; simp only [Decimal.toRat]; norm_num
  · rw [h6, hpr]; simp only [Decimal.toRat]; norm_num

/-- C7 as stated fails.  With `symbol = fiatSymbol = "EUR"` the two names coincide and the
second registry write wins: the call succeeds, the returned market sits at address `0`, but
the registry maps its name to address `1`, which holds the inverse and not the market.  And
with the symbol `XRP`, whose ribbon handler cannot be built, the call returns without error
the empty market, and the registry has no entry under its name. -/
theorem NewBvvMarket_registry_not_always_market :
    ((NewBvvMarket sampleExt [] sampleHandler "EUR" "EUR" "0.5" "0.1").err = none ∧
      (NewBvvMarket sampleExt [] sampleHandler "EUR" "EUR" "0.5" "0.1").heap[0]?
        = some (NewBvvMarket sampleExt [] sampleHandler "EUR" "EUR" "0.5" "0.1").market ∧
      (NewBvvMarket sampleExt [] sampleHandler "EUR" "EUR" "0.5" "0.1").bh.markets
          (NewBvvMarket sampleExt [] sampleHandler "EUR" "EUR" "0.5" "0.1").market.Name
        = some 1 ∧
      (NewBvvMarket sampleExt [] sampleHandler "EUR" "EUR" "0.5" "0.1").heap[1]?
        ≠ some (NewBvvMarket sampleExt [] sampleHandler "EUR" "EUR" "0.5" "0.1").market) ∧
    ((NewBvvMarket sampleExt [] sampleHandler "XRP" "EUR" "0.5" "0.1").err = none ∧
      (NewBvvMarket sampleExt [] sampleHandler "XRP" "EUR" "0.5" "0.1").market
        = BvvMarket.zero ∧
      (NewBvvMarket sampleExt [] sampleHandler "XRP" "EUR" "0.5" "0.1").bh.markets
          (NewBvvMarket sampleExt [] sampleHandler "XRP" "EUR" "0.5" "0.1").market.Name
        = none) := by
  decide

/-- C7, amended: every call that returns without error a market with an inverse has put the
market at a fresh address `p` and the inverse at a fresh address `q`; afterwards the
registry maps the inverse's name `fiatSymbol-symbol` to `q`, it maps the market's name
`symbol-fiatSymbol` to `p` when the two names differ (and to `q` when they are the same
string), whatever was stored under these keys before; every other key of the registry and
every market allocated earlier is unchanged. -/
theorem NewBvvMarket_registers_pair {EMA : Type} (ext : Collaborators EMA)
    (heap : List (BvvMarket EMA)) (bh : BvvHandler)
    (symbol fiatSymbol available inOrder : String)
    (herr : (NewBvvMarket ext heap bh symbol fiatSymbol available inOrder).err = none)
    (hinv : (NewBvvMarket ext heap bh symbol fiatSymbol available inOrder).market.inverse
      ≠ none) :
    ∃ inv,
      (NewBvvMarket ext heap bh symbol fiatSymbol available inOrder).market.inverse
        = some (heap.length + 1) ∧
      inv.inverse = some heap.length ∧
      (NewBvvMarket ext heap bh symbol fiatSymbol available inOrder).heap[heap.length]?
        = some (NewBvvMarket ext heap bh symbol fiatSymbol available inOrder).market ∧
      (NewBvvMarket ext heap bh symbol fiatSymbol available inOrder).heap[heap.length + 1]?
        = some inv ∧
      (NewBvvMarket ext heap bh symbol fiatSymbol available inOrder).market.Name
        = symbol ++ "-" ++ fiatSymbol ∧
      inv.Name = fiatSymbol ++ "-" ++ symbol ∧
      (NewBvvMarket ext heap bh symbol fiatSymbol available inOrder).bh.markets
        (fiatSymbol ++ "-" ++ symbol) = some (heap.length + 1) ∧
      (symbol ++ "-" ++ fiatSymbol ≠ fiatSymbol ++ "-" ++ symbol →
        (NewBvvMarket ext heap bh symbol fiatSymbol available inOrder).bh.markets
          (symbol ++ "-" ++ fiatSymbol) = some heap.length) ∧
      (∀ k, k ≠ symbol ++ "-" ++ fiatSymbol → k ≠ fiatSymbol ++ "-" ++ symbol →
        (NewBvvMarket ext heap bh symbol fiatSymbol available inOrder).bh.markets k
          = bh.markets k) ∧
      (∀ i, i < heap.length →
        (NewBvvMarket ext heap bh symbol fiatSymbol available inOrder).heap[i]? = heap[i]?) := by
  rcases NewBvvMarket_cases ext heap bh symbol fiatSymbol available inOrder with
    ⟨hne, _⟩ | ⟨_, hm, _, _, _⟩ | ⟨config, a, o, price, mk, hcfg, ha, ho, hr, hp, hz⟩
  · exact absurd herr hne
  · rw [hm] at hinv
    exact absurd rfl hinv
  · have hmk := attachRibbon_fields ext _ mk config hr
    have hFrom : mk.From = symbol := by rw [hmk]; rfl
    have hTo : mk.To = fiatSymbol := by rw [hmk]; rfl
    rw [NewBvvMarket_registers ext heap bh symbol fiatSymbol available inOrder config a o
      price mk hcfg ha ho hr hp hz]
    simp only []
    refine ⟨_, ?_, ?_, heap_lookup_fst heap _ _, heap_lookup_snd heap _ _, ?_, ?_, ?_, ?_, ?_,
      ?_⟩
    · unfold setBounds; split <;> rfl
    · unfold setBounds; split <;> rfl
    · rw [setBounds_fst_Name]; simp only [BvvMarket.Name, hFrom, hTo]
    · rw [setBounds_snd_Name]; simp only [BvvMarket.Name]
    · simp [mapSet]
    · intro hne; simp [mapSet, hne]
    · intro k hk1 hk2; simp [mapSet, hk1, hk2]
    · intro i hi; exact heap_lookup_old heap _ _ i hi

/-- C7 amended, at the market `BTC-EUR`: the registry maps `BTC-EUR` to address `0` and
`EUR-BTC` to address `1`, and still has nothing under `ETH-EUR`. -/
theorem NewBvvMarket_registers_pair_witness :
    (NewBvvMarket sampleExt [] sampleHandler "BTC" "EUR" "0.5" "0.1").bh.markets "EUR-BTC"
        = some 1 ∧
      (NewBvvMarket sampleExt [] sampleHandler "BTC" "EUR" "0.5" "0.1").bh.markets "BTC-EUR"
        = some 0 ∧
      (NewBvvMarket sampleExt [] sampleHandler "BTC" "EUR" "0.5" "0.1").bh.markets "ETH-EUR"
        = none ∧
      (NewBvvMarket sampleExt [] sampleHandler "BTC" "EUR" "0.5" "0.1").heap[0]?
        = some (NewBvvMarket sampleExt [] sampleHandler "BTC" "EUR" "0.5" "0.1").market := by
  obtain ⟨inv, _, _, h3, _, _, _, h7, h8, h9, _⟩ :=
    NewBvvMarket_registers_pair sampleExt [] sampleHandler "BTC" "EUR" "0.5" "0.1"
      (by decide) (by decide)
  exact ⟨h7, h8 (by decide), h9 "ETH-EUR" (by decide) (by decide), h3⟩

/-! ## Claims about `NewBvvMarket`: zero price and ribbon failure -/

/-- C11 as stated fails in two places.  With the symbol `XRP`, whose ribbon handler cannot
be built, a zero price gives no error: the call returns the empty market with a nil error.
And with the price `10 ^ 17` the inverse price `1 / 10 ^ 17` rounds to zero at sixteen
decimals, so the inverse registered under `EUR-BTC` has price zero. -/
theorem zero_price_claim_exceptions :
    (extremeHandler.config.Markets "XRP" = some ⟨"100", "1000", ⟨true, []⟩⟩ ∧
      extremeHandler.prices "XRP-EUR" = some ⟨0, -2⟩ ∧
      (NewBvvMarket sampleExt [] extremeHandler "XRP" "EUR" "0.5" "0.1").err = none) ∧
    ((NewBvvMarket sampleExt [] extremeHandler "BTC" "EUR" "0.5" "0.1").err = none ∧
      (NewBvvMarket sampleExt [] extremeHandler "BTC" "EUR" "0.5" "0.1").bh.markets "EUR-BTC"
        = some 1 ∧
      ((NewBvvMarket sampleExt [] extremeHandler "BTC" "EUR" "0.5" "0.1").heap[1]?).map
          (fun inv => inv.Price.value) = some 0) := by
  decide

/-- C11, amended: for a configured symbol whose balances parse and whose ribbon is disabled
or was built, a price-table entry equal to zero makes `NewBvvMarket` return the zero-price
error, for every configuration of the bounds, and leaves the registry as it was.  Every
call that does not register leaves the registry as it was; a market that is registered has
a non-zero price, and its inverse has a non-zero price whenever the price is below
`2 * 10 ^ 16` in absolute value. -/
theorem NewBvvMarket_zero_price {EMA : Type} (ext : Collaborators EMA)
    (heap : List (BvvMarket EMA)) (bh : BvvHandler)
    (symbol fiatSymbol available inOrder : String) :
    (∀ config a o price, bh.config.Markets symbol = some config →
      ext.NewFromString available = .ok a → ext.NewFromString inOrder = .ok o →
      (config.RibbonConfig.Enabled = false ∨
        ∃ rh, ext.NewRibbonHandler (marketShell symbol fiatSymbol config a o)
          config.RibbonConfig = .ok rh) →
      bh.prices (symbol ++ "-" ++ fiatSymbol) = some price → price.toRat = 0 →
      (NewBvvMarket ext heap bh symbol fiatSymbol available inOrder).err
        = some Error.zeroPrice ∧
      (NewBvvMarket ext heap bh symbol fiatSymbol available inOrder).market = BvvMarket.zero ∧
      (NewBvvMarket ext heap bh symbol fiatSymbol available inOrder).bh.markets = bh.markets ∧
      (NewBvvMarket ext heap bh symbol fiatSymbol available inOrder).heap = heap) ∧
    (((NewBvvMarket ext heap bh symbol fiatSymbol available inOrder).err ≠ none ∨
        (NewBvvMarket ext heap bh symbol fiatSymbol available inOrder).market.inverse = none) →
      (NewBvvMarket ext heap bh symbol fiatSymbol available inOrder).bh.markets = bh.markets) ∧
    ((NewBvvMarket ext heap bh symbol fiatSymbol available inOrder).err = none →
      ∀ q, (NewBvvMarket ext heap bh symbol fiatSymbol available inOrder).market.inverse
          = some q →
        (NewBvvMarket ext heap bh symbol fiatSymbol available inOrder).market.Price.toRat ≠ 0 ∧
        ∃ inv, (NewBvvMarket ext heap bh symbol fiatSymbol available inOrder).heap[q]?
            = some inv ∧
          (|(NewBvvMarket ext heap bh symbol fiatSymbol available inOrder).market.Price.toRat|
              < 2 * 10 ^ 16 → inv.Price.toRat ≠ 0)) := by
  refine ⟨?_, ?_, ?_⟩
  · intro config a o price hcfg ha ho hrib hp hz
    have hr : ∃ mk, attachRibbon ext (marketShell symbol fiatSymbol config a o) config
        = .ok mk := by
      unfold attachRibbon
      rcases hrib with hoff | ⟨rh, hrh⟩
      · simp [hoff]
      · rw [hrh]; split <;> simp
    obtain ⟨mk, hr⟩ := hr
    have hmk := attachRibbon_fields ext _ mk config hr
    have hname : mk.Name = symbol ++ "-" ++ fiatSymbol := by rw [hmk]; rfl
    have hE : price.Equal (Decimal.NewFromInt32 0) = true :=
      (Decimal.Equal_zero_iff price).mpr hz
    have hrev : ({ mk with Price := price } : BvvMarket EMA).reverse
        = (BvvMarket.zero, some Error.zeroPrice) := by
      simp only [BvvMarket.reverse, hE, if_true]
    unfold NewBvvMarket
    simp [hcfg, ha, ho, hr, BvvMarket.setPrice, hname, hp, hrev]
  · intro h
    rcases NewBvvMarket_cases ext heap bh symbol fiatSymbol available inOrder with
      ⟨_, _, hb, _⟩ | ⟨_, _, hb, _, _⟩ | ⟨config, a, o, price, mk, hcfg, ha, ho, hr, hp, hz⟩
    · rw [hb]
    · rw [hb]
    · exfalso
      rw [NewBvvMarket_registers ext heap bh symbol fiatSymbol available inOrder config a o
        price mk hcfg ha ho hr hp hz] at h
      rcases h with h | h
      · exact h rfl
      · revert h
        simp only []
        unfold setBounds
        split <;> simp
  · intro herr q hq
    rcases NewBvvMarket_cases ext heap bh symbol fiatSymbol available inOrder with
      ⟨hne, _⟩ | ⟨_, hm, _, _, _⟩ | ⟨config, a, o, price, mk, hcfg, ha, ho, hr, hp, hz⟩
    · exact absurd herr hne
    · rw [hm] at hq
      simp [BvvMarket.zero] at hq
    · have hnz : price.toRat ≠ 0 := by
        intro h0
        rw [(Decimal.Equal_zero_iff price).mpr h0] at hz
        cases hz
      rw [NewBvvMarket_registers ext heap bh symbol fiatSymbol available inOrder config a o
        price mk hcfg ha ho hr hp hz] at hq ⊢
      simp only [] at hq ⊢
      have hP : (setBounds (parseMin ext config) (parseMax ext config (parseMin ext config))
          ({ mk with Price := price, inverse := some (heap.length + 1) } : BvvMarket EMA)
          ({ (BvvMarket.zero : BvvMarket EMA) with
              From := fiatSymbol, To := symbol,
              Price := (Decimal.NewFromInt32 1).Div price,
              Available := price.Mul a, InOrder := price.Mul o,
              inverse := some heap.length })).1.Price = price := by
        unfold setBounds; split <;> rfl
      have hI : (setBounds (parseMin ext config) (parseMax ext config (parseMin ext config))
          ({ mk with Price := price, inverse := some (heap.length + 1) } : BvvMarket EMA)
          ({ (BvvMarket.zero : BvvMarket EMA) with
              From := fiatSymbol, To := symbol,
              Price := (Decimal.NewFromInt32 1).Div price,
              Available := price.Mul a, InOrder := price.Mul o,
              inverse := some heap.length })).1.inverse = some (heap.length + 1) := by
        unfold setBounds; split <;> rfl
      have hQ : (setBounds (parseMin ext config) (parseMax ext config (parseMin ext config))
          ({ mk with Price := price, inverse := some (heap.length + 1) } : BvvMarket EMA)
          ({ (BvvMarket.zero : BvvMarket EMA) with
              From := fiatSymbol, To := symbol,
              Price := (Decimal.NewFromInt32 1).Div price,
              Available := price.Mul a, InOrder := price.Mul o,
              inverse := some heap.length })).2.Price
            = (Decimal.NewFromInt32 1).Div price := by
        unfold setBounds; split <;> rfl
      rw [hI] at hq
      cases hq
      rw [hP]
      refine ⟨hnz, _, heap_lookup_snd heap _ _, ?_⟩
      intro hlt
      rw [hQ]
      exact Decimal.Div_one_ne_zero price hnz hlt

/-- C11 amended, at the symbol `ETH` quoted at `0.00`: the call returns the zero-price
error and the registry is as before. -/
theorem NewBvvMarket_zero_price_witness :
    (NewBvvMarket sampleExt [] extremeHandler "ETH" "EUR" "0.5" "0.1").err
        = some Error.zeroPrice ∧
      (NewBvvMarket sampleExt [] extremeHandler "ETH" "EUR" "0.5" "0.1").market
        = BvvMarket.zero ∧
      (NewBvvMarket sampleExt [] extremeHandler "ETH" "EUR" "0.5" "0.1").bh.markets
        = extremeHandler.markets ∧
      (NewBvvMarket sampleExt [] extremeHandler "ETH" "EUR" "0.5" "0.1").heap = [] :=
  (NewBvvMarket_zero_price sampleExt [] extremeHandler "ETH" "EUR" "0.5" "0.1").1
    ⟨"-5", "1000", ⟨false, []⟩⟩ ⟨5, -1⟩ ⟨1, -1⟩ ⟨0, -2⟩ (by decide) rfl rfl
    (Or.inl (by decide)) (by decide) (by simp [Decimal.toRat])

/-- C12, the code at a symbol whose ribbon handler cannot be built (`XRP`, ribbon enabled,
balances `0.5` and `0.1`, price `0.5`): the call returns the empty market with a nil error,
not a market `XRP-EUR`, and neither `XRP-EUR` nor `EUR-XRP` is registered. -/
theorem NewBvvMarket_ribbon_failure_returns_empty :
    sampleHandler.prices "XRP-EUR" = some ⟨5, -1⟩ ∧
    (NewBvvMarket sampleExt [] sampleHandler "XRP" "EUR" "0.5" "0.1").err = none ∧
    (NewBvvMarket sampleExt [] sampleHandler "XRP" "EUR" "0.5" "0.1").market
      = BvvMarket.zero ∧
    (NewBvvMarket sampleExt [] sampleHandler "XRP" "EUR" "0.5" "0.1").market.From = "" ∧
    (NewBvvMarket sampleExt [] sampleHandler "XRP" "EUR" "0.5" "0.1").bh.markets "XRP-EUR"
      = none ∧
    (NewBvvMarket sampleExt [] sampleHandler "XRP" "EUR" "0.5" "0.1").bh.markets "EUR-XRP"
      = none ∧
    (NewBvvMarket sampleExt [] sampleHandler "XRP" "EUR" "0.5" "0.1").heap = [] := by
  decide

/-- The return of line 75 in general: when the ribbon is enabled and its handler cannot be
built, the call hands back the empty market with a nil error and writes nothing. -/
theorem NewBvvMarket_ribbon_failure {EMA : Type} (ext : Collaborators EMA)
    (heap : List (BvvMarket EMA)) (bh : BvvHandler)
    (symbol fiatSymbol available inOrder : String) (config : bvvMarketConfig)
    (a o : Decimal) (e : String)
    (hcfg : bh.config.Markets symbol = some config)
    (ha : ext.NewFromString available = .ok a)
    (ho : ext.NewFromString inOrder = .ok o)
    (hen : config.RibbonConfig.Enabled = true)
    (hrib : ext.NewRibbonHandler (marketShell symbol fiatSymbol config a o)
      config.RibbonConfig = .error e) :
    (NewBvvMarket ext heap bh symbol fiatSymbol available inOrder).err = none ∧
      (NewBvvMarket ext heap bh symbol fiatSymbol available inOrder).market = BvvMarket.zero ∧
      (NewBvvMarket ext heap bh symbol fiatSymbol available inOrder).bh.markets = bh.markets ∧
      (NewBvvMarket ext heap bh symbol fiatSymbol available inOrder).heap = heap := by
  have hr : attachRibbon ext (marketShell symbol fiatSymbol config a o) config = .error e := by
    unfold attachRibbon
    simp [hen, hrib]
  unfold NewBvvMarket
  simp [hcfg, ha, ho, hr]

/-! ## The registered pair in explicit form -/

/-- The outcome of a call that reaches the registration, field by field: the market and
its inverse, and the two ways the bounds are written. -/
theorem NewBvvMarket_constructed {EMA : Type} (ext : Collaborators EMA)
    (heap : List (BvvMarket EMA)) (bh : BvvHandler)
    (symbol fiatSymbol available inOrder : String)
    (config : bvvMarketConfig) (a o price : Decimal) (mk : BvvMarket EMA)
    (hcfg : bh.config.Markets symbol = some config)
    (ha : ext.NewFromString available = .ok a)
    (ho : ext.NewFromString inOrder = .ok o)
    (hr : attachRibbon ext (marketShell symbol fiatSymbol config a o) config = .ok mk)
    (hp : bh.prices (symbol ++ "-" ++ fiatSymbol) = some price)
    (hz : price.Equal (Decimal.NewFromInt32 0) = false) :
    ∃ mn mx imn imx : Decimal,
      NewBvvMarket ext heap bh symbol fiatSymbol available inOrder =
        ⟨{ mk with Price := price, inverse := some (heap.length + 1), Min := mn, Max := mx },
         none,
         { bh with
             markets := mapSet (mapSet bh.markets (symbol ++ "-" ++ fiatSymbol) heap.length)
               (fiatSymbol ++ "-" ++ symbol) (heap.length + 1) },
         heap ++ [{ mk with Price := price, inverse := some (heap.length + 1),
                            Min := mn, Max := mx },
                  { (BvvMarket.zero : BvvMarket EMA) with
                      From := fiatSymbol, To := symbol,
                      Price := (Decimal.NewFromInt32 1).Div price,
                      Available := price.Mul a, InOrder := price.Mul o,
                      inverse := some heap.length, Min := imn, Max := imx }]⟩ ∧
      (((parseMin ext config).Equal Decimal.Zero
            || (parseMax ext config (parseMin ext config)).Equal Decimal.Zero) = true ∧
          mn = Decimal.Zero ∧ mx = Decimal.Zero ∧ imn = Decimal.Zero ∧ imx = Decimal.Zero ∨
        ((parseMin ext config).Equal Decimal.Zero
            || (parseMax ext config (parseMin ext config)).Equal Decimal.Zero) = false ∧
          imn = parseMin ext config ∧ imx = parseMax ext config (parseMin ext config) ∧
          mn = ((Decimal.NewFromInt32 1).Div price).Mul (parseMin ext config) ∧
          mx = ((Decimal.NewFromInt32 1).Div price).Mul
            (parseMax ext config (parseMin ext config))) := by
  rw [NewBvvMarket_registers ext heap bh symbol fiatSymbol available inOrder config a o
    price mk hcfg ha ho hr hp hz]
  cases hd : ((parseMin ext config).Equal Decimal.Zero
      || (parseMax ext config (parseMin ext config)).Equal Decimal.Zero) with
  | true =>
    simp only [setBounds_disabled _ _ _ _ hd]
    exact ⟨Decimal.Zero, Decimal.Zero, Decimal.Zero, Decimal.Zero, rfl,
      Or.inl ⟨trivial, rfl, rfl, rfl, rfl⟩⟩
  | false =>
    simp only [setBounds_enabled _ _ _ _ hd]
    exact ⟨_, _, _, _, rfl, Or.inr ⟨trivial, rfl, rfl, rfl, rfl⟩⟩

/-! ## Claims about the link between a market and its inverse -/

/-- The back-link, away from the return of line 75: after a call of `NewBvvMarket` that returns without error a market with its
inverse, the registry entry under the market's name points to a market `m` whose inverse
points to a market whose inverse pointer is that same registry entry: `m.inverse.inverse`
is `m` itself, at the same address, hence with the same fields.  When the two names differ
that registered market is the returned one, with the `Min` and `Max` written after the
back-link was set.  Every call, whatever its outcome, keeps the registry well linked. -/
theorem NewBvvMarket_inverse_of_inverse {EMA : Type} (ext : Collaborators EMA)
    (heap : List (BvvMarket EMA)) (bh : BvvHandler)
    (symbol fiatSymbol available inOrder : String) :
    ((NewBvvMarket ext heap bh symbol fiatSymbol available inOrder).err = none →
      (NewBvvMarket ext heap bh symbol fiatSymbol available inOrder).market.inverse ≠ none →
      ∃ p m q inv,
        (NewBvvMarket ext heap bh symbol fiatSymbol available inOrder).bh.markets
          (NewBvvMarket ext heap bh symbol fiatSymbol available inOrder).market.Name
            = some p ∧
        (NewBvvMarket ext heap bh symbol fiatSymbol available inOrder).heap[p]? = some m ∧
        m.inverse = some q ∧
        (NewBvvMarket ext heap bh symbol fiatSymbol available inOrder).heap[q]? = some inv ∧
        inv.inverse = some p ∧
        (symbol ++ "-" ++ fiatSymbol ≠ fiatSymbol ++ "-" ++ symbol →
          m = (NewBvvMarket ext heap bh symbol fiatSymbol available inOrder).market)) ∧
    (WellLinked heap bh.markets →
      WellLinked (NewBvvMarket ext heap bh symbol fiatSymbol available inOrder).heap
        (NewBvvMarket ext heap bh symbol fiatSymbol available inOrder).bh.markets) := by
  rcases NewBvvMarket_cases ext heap bh symbol fiatSymbol available inOrder with
    ⟨hne, _, hb, hh⟩ | ⟨_, hm, hb, hh, _⟩ |
    ⟨config, a, o, price, mk, hcfg, ha, ho, hr, hp, hz⟩
  · refine ⟨fun herr => absurd herr hne, ?_⟩
    intro hwl; rw [hb, hh]; exact hwl
  · refine ⟨fun _ hinv => ?_, ?_⟩
    · rw [hm] at hinv; exact absurd rfl hinv
    · intro hwl; rw [hb, hh]; exact hwl
  · have hmk := attachRibbon_fields ext _ mk config hr
    have hFrom : mk.From = symbol := by rw [hmk]; rfl
    have hTo : mk.To = fiatSymbol := by rw [hmk]; rfl
    obtain ⟨mn, mx, imn, imx, hres, _⟩ := NewBvvMarket_constructed ext heap bh symbol
      fiatSymbol available inOrder config a o price mk hcfg ha ho hr hp hz
    rw [hres]
    refine ⟨fun _ _ => ?_, ?_⟩
    · by_cases hnames : symbol ++ "-" ++ fiatSymbol = fiatSymbol ++ "-" ++ symbol
      · refine ⟨heap.length + 1, _, heap.length, _, ?_, heap_lookup_snd heap _ _, rfl,
          heap_lookup_fst heap _ _, rfl, fun h => absurd hnames h⟩
        simp only [BvvMarket.Name, hFrom, hTo, mapSet, hnames, if_true]
      · refine ⟨heap.length, _, heap.length + 1, _, ?_, heap_lookup_fst heap _ _, rfl,
          heap_lookup_snd heap _ _, rfl, fun _ => rfl⟩
        simp only [BvvMarket.Name, hFrom, hTo, mapSet, hnames, if_false, if_true]
    · intro hwl k p hk
      simp only [mapSet] at hk
      split at hk
      · cases hk
        exact ⟨_, heap.length, _, heap_lookup_snd heap _ _, rfl, heap_lookup_fst heap _ _, rfl⟩
      · split at hk
        · cases hk
          exact ⟨_, heap.length + 1, _, heap_lookup_fst heap _ _, rfl,
            heap_lookup_snd heap _ _, rfl⟩
        · obtain ⟨m, q, inv, h1, h2, h3, h4⟩ := hwl k p hk
          have hp1 : p < heap.length := by
            by_contra hcon
            rw [List.getElem?_eq_none (by omega)] at h1
            cases h1
          have hq1 : q < heap.length := by
            by_contra hcon
            rw [List.getElem?_eq_none (by omega)] at h3
            cases h3
          exact ⟨m, q, inv, by rw [heap_lookup_old heap _ _ p hp1]; exact h1, h2,
            by rw [heap_lookup_old heap _ _ q hq1]; exact h3, h4⟩

/-- The back-link, at the market `BTC-EUR` built on an empty registry: the entry `BTC-EUR` is address
`0`, it holds the returned market, whose inverse at address `1` points back to `0`; and the
registry after the call is well linked. -/
theorem NewBvvMarket_inverse_of_inverse_witness :
    (∃ m inv,
      (NewBvvMarket sampleExt [] sampleHandler "BTC" "EUR" "0.5" "0.1").bh.markets "BTC-EUR"
        = some 0 ∧
      (NewBvvMarket sampleExt [] sampleHandler "BTC" "EUR" "0.5" "0.1").heap[0]? = some m ∧
      m.inverse = some 1 ∧
      (NewBvvMarket sampleExt [] sampleHandler "BTC" "EUR" "0.5" "0.1").heap[1]? = some inv ∧
      inv.inverse = some 0 ∧
      m = (NewBvvMarket sampleExt [] sampleHandler "BTC" "EUR" "0.5" "0.1").market) ∧
    WellLinked (NewBvvMarket sampleExt [] sampleHandler "BTC" "EUR" "0.5" "0.1").heap
      (NewBvvMarket sampleExt [] sampleHandler "BTC" "EUR" "0.5" "0.1").bh.markets := by
  have h := NewBvvMarket_inverse_of_inverse sampleExt [] sampleHandler "BTC" "EUR" "0.5" "0.1"
  refine ⟨?_, h.2 (by intro k p hk; cases hk)⟩
  obtain ⟨p, m, q, inv, h1, h2, h3, h4, h5, h6⟩ := h.1 (by decide) (by decide)
  have hn : (NewBvvMarket sampleExt [] sampleHandler "BTC" "EUR" "0.5" "0.1").market.Name
      = "BTC-EUR" := by decide
  rw [hn] at h1
  have hp0 : (NewBvvMarket sampleExt [] sampleHandler "BTC" "EUR" "0.5" "0.1").bh.markets
      "BTC-EUR" = some 0 := by decide
  rw [hp0] at h1
  cases h1
  have hm := h6 (by decide)
  subst hm
  have hq : (NewBvvMarket sampleExt [] sampleHandler "BTC" "EUR" "0.5" "0.1").market.inverse
      = some 1 := by decide
  rw [hq] at h3
  cases h3
  exact ⟨_, inv, hp0, h2, hq, h4, h5, rfl⟩

/-! ## Claims about the round trip through the inverse -/

/-- C14 as stated fails.  At the price `3` both reversals succeed, but the price of the
second one is `3.0000000000000003`, which is not equal to `3`.  At the price `10 ^ 17` the
first reversal succeeds with the price `0.0000000000000000`, and the second one fails. -/
theorem reverse_twice_exceptions :
    ((sampleMarket ⟨3, 0⟩).reverse.2 = none ∧
      (sampleMarket ⟨3, 0⟩).reverse.1.reverse.2 = none ∧
      (sampleMarket ⟨3, 0⟩).reverse.1.reverse.1.Price = ⟨30000000000000003, -16⟩ ∧
      (sampleMarket ⟨3, 0⟩).reverse.1.reverse.1.Price.Equal (sampleMarket ⟨3, 0⟩).Price
        = false) ∧
    ((sampleMarket ⟨1, 17⟩).reverse.2 = none ∧
      (sampleMarket ⟨1, 17⟩).reverse.1.Price = ⟨0, -16⟩ ∧
      (sampleMarket ⟨1, 17⟩).reverse.1.reverse.2 = some Error.zeroPrice) := by
  decide

theorem reverse_of_nonzero {EMA : Type} (bm : BvvMarket EMA) (hp : bm.Price.toRat ≠ 0) :
    bm.reverse
      = ({ (BvvMarket.zero : BvvMarket EMA) with
             From := bm.To, To := bm.From,
             Price := (Decimal.NewFromInt32 1).Div bm.Price,
             Available := bm.Price.Mul bm.Available,
             InOrder := bm.Price.Mul bm.InOrder }, none) := by
  have h : ¬ bm.Price.Equal (Decimal.NewFromInt32 0) = true :=
    fun h => hp ((Decimal.Equal_zero_iff _).mp h)
  simp only [BvvMarket.reverse, h, BvvMarket.exchange]
  rfl

/-- C14, amended: for a market with non-zero price `reverse` succeeds.  The reversal of the
result succeeds when the price is below `2 * 10 ^ 16` in absolute value, and each of the
two prices is then within `5 * 10 ^ (-17)` of the exact reciprocal of the price before it.
When the price and its reciprocal both have at most sixteen decimals, the second reversal
succeeds and gives back the price exactly. -/
theorem reverse_twice_price {EMA : Type} (bm : BvvMarket EMA) (hp : bm.Price.toRat ≠ 0) :
    bm.reverse.2 = none ∧
    (|bm.Price.toRat| < 2 * 10 ^ 16 →
      bm.reverse.1.reverse.2 = none ∧
      |bm.reverse.1.Price.toRat - 1 / bm.Price.toRat| ≤ 1 / (2 * 10 ^ 16) ∧
      |bm.reverse.1.reverse.1.Price.toRat - 1 / bm.reverse.1.Price.toRat|
        ≤ 1 / (2 * 10 ^ 16)) ∧
    ((∃ k : Int, 1 / bm.Price.toRat = (k : ℚ) / 10 ^ 16) →
      (∃ n : Int, bm.Price.toRat = (n : ℚ) / 10 ^ 16) →
      bm.reverse.1.reverse.2 = none ∧
      bm.reverse.1.reverse.1.Price.toRat = bm.Price.toRat) := by
  have hrev := reverse_of_nonzero bm hp
  have h1 : bm.reverse.1.Price = (Decimal.NewFromInt32 1).Div bm.Price := by rw [hrev]
  have hc1 := Decimal.Div_close (Decimal.NewFromInt32 1) bm.Price hp
  rw [Decimal.toRat_NewFromInt32, Int.cast_one] at hc1
  refine ⟨by rw [hrev], ?_, ?_⟩
  · intro hlt
    have hx : bm.reverse.1.Price.toRat ≠ 0 := by
      rw [h1]; exact Decimal.Div_one_ne_zero bm.Price hp hlt
    have hrev2 := reverse_of_nonzero bm.reverse.1 hx
    have hc2 := Decimal.Div_close (Decimal.NewFromInt32 1) bm.reverse.1.Price hx
    rw [Decimal.toRat_NewFromInt32, Int.cast_one] at hc2
    refine ⟨by rw [hrev2], by rw [h1]; exact hc1, ?_⟩
    have h2 : bm.reverse.1.reverse.1.Price
        = (Decimal.NewFromInt32 1).Div bm.reverse.1.Price := by rw [hrev2]
    rw [h2]; exact hc2
  · rintro ⟨k, hk⟩ ⟨n, hn⟩
    have he1 : bm.reverse.1.Price.toRat = 1 / bm.Price.toRat := by
      rw [h1]
      have := Decimal.Div_exact (Decimal.NewFromInt32 1) bm.Price hp k
        (by rw [Decimal.toRat_NewFromInt32, Int.cast_one]; exact hk)
      rw [Decimal.toRat_NewFromInt32, Int.cast_one] at this
      exact this
    have hx : bm.reverse.1.Price.toRat ≠ 0 := by
      rw [he1]; exact one_div_ne_zero hp
    have hrev2 := reverse_of_nonzero bm.reverse.1 hx
    have h2 : bm.reverse.1.reverse.1.Price
        = (Decimal.NewFromInt32 1).Div bm.reverse.1.Price := by rw [hrev2]
    have hq : 1 / bm.reverse.1.Price.toRat = bm.Price.toRat := by
      rw [he1]; field_simp
    refine ⟨by rw [hrev2], ?_⟩
    rw [h2]
    have := Decimal.Div_exact (Decimal.NewFromInt32 1) bm.reverse.1.Price hx n
      (by rw [Decimal.toRat_NewFromInt32, Int.cast_one, hq]; exact hn)
    rw [Decimal.toRat_NewFromInt32, Int.cast_one, hq] at this
    exact this

/-- C14 amended, at the price `20000`, whose reciprocal `0.00005` has five decimals: both
reversals succeed and the price comes back as `20000`. -/
theorem reverse_twice_price_witness :
    (sampleMarket ⟨20000, 0⟩).reverse.2 = none ∧
    (sampleMarket ⟨20000, 0⟩).reverse.1.reverse.2 = none ∧
    (sampleMarket ⟨20000, 0⟩).reverse.1.reverse.1.Price.toRat = 20000 := by
  have hp : (sampleMarket ⟨20000, 0⟩).Price.toRat = 20000 := by
    simp [sampleMarket, Decimal.toRat]
  have h := reverse_twice_price (sampleMarket ⟨20000, 0⟩) (by rw [hp]; norm_num)
  obtain ⟨h2, h3⟩ := h.2.2 ⟨500000000000, by rw [hp]; norm_num⟩
    ⟨200000000000000000000, by rw [hp]; norm_num⟩
  exact ⟨h.1, h2, by rw [h3, hp]⟩

/-- C15 as stated fails: at the price `3` and the amount `1`, the amount exchanged and
multiplied by the exchange of `1` through the inverse is `0.9999999999999999`, not `1`. -/
theorem round_trip_at_three_inexact :
    (sampleMarket ⟨3, 0⟩).reverse.2 = none ∧
    ((sampleMarket ⟨3, 0⟩).exchange ⟨1, 0⟩).Mul
        ((sampleMarket ⟨3, 0⟩).reverse.1.exchange (Decimal.NewFromInt 1))
      = ⟨9999999999999999, -16⟩ ∧
    (((sampleMarket ⟨3, 0⟩).exchange ⟨1, 0⟩).Mul
        ((sampleMarket ⟨3, 0⟩).reverse.1.exchange (Decimal.NewFromInt 1))).Equal ⟨1, 0⟩
      = false := by
  decide

/-- C15, amended: for a market with non-zero price and every amount `a`, the product
`exchange(m, a) * exchange(inverse, 1)` denotes `a * (Price * inversePrice)`; it is within
`|Price * a| * 5 * 10 ^ (-17)` of `a`, and it equals `a` when the reciprocal of the price
has at most sixteen decimals. -/
theorem exchange_round_trip {EMA : Type} (bm : BvvMarket EMA) (a : Decimal)
    (hp : bm.Price.toRat ≠ 0) :
    ((bm.exchange a).Mul (bm.reverse.1.exchange (Decimal.NewFromInt 1))).toRat
        = a.toRat * (bm.Price.toRat * bm.reverse.1.Price.toRat) ∧
    |((bm.exchange a).Mul (bm.reverse.1.exchange (Decimal.NewFromInt 1))).toRat - a.toRat|
        ≤ |bm.Price.toRat * a.toRat| * (1 / (2 * 10 ^ 16)) ∧
    ((∃ k : Int, 1 / bm.Price.toRat = (k : ℚ) / 10 ^ 16) →
      ((bm.exchange a).Mul (bm.reverse.1.exchange (Decimal.NewFromInt 1))).Equal a = true) := by
  have hrev := reverse_of_nonzero bm hp
  have h1 : bm.reverse.1.Price = (Decimal.NewFromInt32 1).Div bm.Price := by rw [hrev]
  have hc1 := Decimal.Div_close (Decimal.NewFromInt32 1) bm.Price hp
  rw [Decimal.toRat_NewFromInt32, Int.cast_one, ← h1] at hc1
  have hprod : ((bm.exchange a).Mul (bm.reverse.1.exchange (Decimal.NewFromInt 1))).toRat
      = a.toRat * (bm.Price.toRat * bm.reverse.1.Price.toRat) := by
    simp only [BvvMarket.exchange, Decimal.toRat_Mul, Decimal.toRat_NewFromInt, Int.cast_one]
    ring
  refine ⟨hprod, ?_, ?_⟩
  · rw [hprod]
    have e : a.toRat * (bm.Price.toRat * bm.reverse.1.Price.toRat) - a.toRat
        = (bm.Price.toRat * a.toRat) * (bm.reverse.1.Price.toRat - 1 / bm.Price.toRat) := by
      field_simp; ring
    rw [e, abs_mul]
    exact mul_le_mul_of_nonneg_left hc1 (abs_nonneg _)
  · rintro ⟨k, hk⟩
    have he1 : bm.reverse.1.Price.toRat = 1 / bm.Price.toRat := by
      rw [h1]
      have := Decimal.Div_exact (Decimal.NewFromInt32 1) bm.Price hp k
        (by rw [Decimal.toRat_NewFromInt32, Int.cast_one]; exact hk)
      rw [Decimal.toRat_NewFromInt32, Int.cast_one] at this
      exact this
    rw [Decimal.Equal_iff, hprod, he1]
    field_simp

/-- C15 amended, at the price `20000` and the amount `0.5`: the round trip gives `0.5`. -/
theorem exchange_round_trip_witness :
    (((sampleMarket ⟨20000, 0⟩).exchange ⟨5, -1⟩).Mul
        ((sampleMarket ⟨20000, 0⟩).reverse.1.exchange (Decimal.NewFromInt 1))).Equal ⟨5, -1⟩
      = true := by
  have hp : (sampleMarket ⟨20000, 0⟩).Price.toRat = 20000 := by
    simp [sampleMarket, Decimal.toRat]
  exact (exchange_round_trip (sampleMarket ⟨20000, 0⟩) ⟨5, -1⟩ (by rw [hp]; norm_num)).2.2
    ⟨500000000000, by rw [hp]; norm_num⟩

/-! ## Claims about the ribbon queries `GetExpectedRate` and `GetBandWidth` -/

/-- C16, the code at a ribbon whose member list is empty but not nil: the guard of line
125 lets it pass, the sum is divided by `NewFromInt(0)`, and `GetExpectedRate` panics with
a division by zero instead of returning. -/
theorem GetExpectedRate_empty_ribbon_panics :
    (sampleRibbon []).rh = some ⟨some []⟩ ∧
    (sampleRibbon []).GetExpectedRate sampleMethods
      = Outcome.panics "decimal division by 0" := by
  decide

theorem sumReadings_ok {EMA : Type} (m : EMAMethods EMA) :
    ∀ (emas : List EMA) (acc : Decimal),
      (∀ ema ∈ emas, ∃ v, m.GetWithOffset ema = .ok v) →
      ∃ sum, sumReadings m emas acc = .ok sum ∧
        sum.toRat = acc.toRat + (emas.map (readingOf m)).sum := by
  intro emas
  induction emas with
  | nil => intro acc _; exact ⟨acc, rfl, by simp⟩
  | cons ema rest ih =>
    intro acc hall
    obtain ⟨v, hv⟩ := hall ema (List.mem_cons_self _ _)
    obtain ⟨sum, hs, hsum⟩ := ih (acc.Add v) (fun x hx => hall x (List.mem_cons_of_mem _ hx))
    refine ⟨sum, ?_, ?_⟩
    · simp only [sumReadings, hv]; exact hs
    · rw [hsum, Decimal.toRat_Add]
      simp only [List.map_cons, List.sum_cons, readingOf, hv]
      ring

theorem sumReadings_error {EMA : Type} (m : EMAMethods EMA) :
    ∀ (emas : List EMA) (acc : Decimal),
      (∃ ema ∈ emas, ∃ e, m.GetWithOffset ema = .error e) →
      ∃ e, sumReadings m emas acc = .error e ∧ ∃ ema ∈ emas, m.GetWithOffset ema = .error e := by
  intro emas
  induction emas with
  | nil => intro acc h; obtain ⟨_, hmem, _⟩ := h; cases hmem
  | cons ema rest ih =>
    intro acc h
    cases hv : m.GetWithOffset ema with
    | error e =>
      exact ⟨e, by simp only [sumReadings, hv], ema, List.mem_cons_self _ _, hv⟩
    | ok v =>
      obtain ⟨x, hx, e, he⟩ := h
      have hx2 : x ∈ rest := by
        rcases List.mem_cons.mp hx with h1 | h1
        · subst h1; rw [hv] at he; cases he
        · exact h1
      obtain ⟨e2, h2, y, hy, hye⟩ := ih (acc.Add v) ⟨x, hx2, e, he⟩
      exact ⟨e2, by simp only [sumReadings, hv]; exact h2, y, List.mem_cons_of_mem _ hy, hye⟩

/-- What `GetExpectedRate` does away from the empty member list: an error without ribbon
handler or with a nil member list; with at least one member and all readings succeeding,
the sum of the readings divided by the number of members, the quotient rounded at sixteen
decimals; and the error of a failing reading when there is one. -/
theorem GetExpectedRate_spec {EMA : Type} (m : EMAMethods EMA) (bm : BvvMarket EMA) :
    ((bm.rh = none ∨ ∃ rh, bm.rh = some rh ∧ rh.emas = none) →
      bm.GetExpectedRate m = Outcome.returns (Decimal.Zero, some Error.noRibbonHandler)) ∧
    (∀ rh emas, bm.rh = some rh → rh.emas = some emas → emas ≠ [] →
      (∀ ema ∈ emas, ∃ v, m.GetWithOffset ema = .ok v) →
      ∃ mean, bm.GetExpectedRate m = Outcome.returns (mean, none) ∧
        |mean.toRat - (emas.map (readingOf m)).sum / emas.length| ≤ 1 / (2 * 10 ^ 16)) ∧
    (∀ rh emas, bm.rh = some rh → rh.emas = some emas →
      (∃ ema ∈ emas, ∃ e, m.GetWithOffset ema = .error e) →
      ∃ e, bm.GetExpectedRate m = Outcome.returns (⟨0, 0⟩, some (Error.external e)) ∧
        ∃ ema ∈ emas, m.GetWithOffset ema = .error e) := by
  refine ⟨?_, ?_, ?_⟩
  · rintro (h | ⟨rh, h1, h2⟩)
    · simp only [BvvMarket.GetExpectedRate, h]
    · simp only [BvvMarket.GetExpectedRate, h1, h2]
  · intro rh emas h1 h2 hne hall
    obtain ⟨sum, hs, hsum⟩ := sumReadings_ok m emas Decimal.Zero hall
    have hlen : (emas.length : Int) ≠ 0 := by
      have : emas.length ≠ 0 := fun h => hne (List.length_eq_zero.mp h)
      exact_mod_cast this
    have hn : (Decimal.NewFromInt emas.length).toRat ≠ 0 := by
      rw [Decimal.toRat_NewFromInt]; exact_mod_cast hlen
    have hv : (Decimal.NewFromInt emas.length).value ≠ 0 := hlen
    refine ⟨sum.Div (Decimal.NewFromInt emas.length), ?_, ?_⟩
    · simp only [BvvMarket.GetExpectedRate, h1, h2, hs, Decimal.DivOrPanic, hv, if_false]
    · have hc := Decimal.Div_close sum (Decimal.NewFromInt emas.length) hn
      rw [hsum, Decimal.toRat_Zero, zero_add, Decimal.toRat_NewFromInt] at hc
      exact_mod_cast hc
  · intro rh emas h1 h2 hfail
    obtain ⟨e, he, hmem⟩ := sumReadings_error m emas Decimal.Zero hfail
    exact ⟨e, by simp only [BvvMarket.GetExpectedRate, h1, h2, he], hmem⟩

/-- C17, the code at the index `-1` on a ribbon of two members: the index passes the guard
`len(bm.rh.emas) <= ema` of line 142 and the slice access of line 145 panics. -/
theorem GetBandWidth_negative_index_panics :
    (sampleRibbon [10, 12]).rh = some ⟨some [10, 12]⟩ ∧
    ¬ ((RibbonHandler.members (⟨some [10, 12]⟩ : RibbonHandler Nat)).length : Int) ≤ -1 ∧
    (sampleRibbon [10, 12]).GetBandWidth sampleMethods (-1)
      = Outcome.panics "index out of range" := by
  decide

/-- What `GetBandWidth` does away from the negative indices: an error without ribbon
handler or for an index at or beyond the number of members, and otherwise, for an index
from `0` on, the result of the member's `GetBandwidth`. -/
theorem GetBandWidth_spec {EMA : Type} (m : EMAMethods EMA) (bm : BvvMarket EMA) (ema : Int) :
    (bm.rh = none →
      bm.GetBandWidth m ema
        = Outcome.returns (MABandwidth.zero, some Error.bandwidthNeedsRibbon)) ∧
    (∀ rh, bm.rh = some rh → (rh.members.length : Int) ≤ ema →
      bm.GetBandWidth m ema
        = Outcome.returns (MABandwidth.zero, some (Error.ribbonNotDefined ema))) ∧
    (∀ rh, bm.rh = some rh → 0 ≤ ema → ema < rh.members.length →
      ∃ member, rh.members[ema.toNat]? = some member ∧
        bm.GetBandWidth m ema =
          match m.GetBandwidth member with
          | .ok bw => Outcome.returns (bw, none)
          | .error e => Outcome.returns (MABandwidth.zero, some (Error.external e))) ∧
    (∀ rh, bm.rh = some rh → ema < 0 →
      bm.GetBandWidth m ema = Outcome.panics "index out of range") := by
  refine ⟨?_, ?_, ?_, ?_⟩
  · intro h; simp only [BvvMarket.GetBandWidth, h]
  · intro rh h hle; simp only [BvvMarket.GetBandWidth, h, hle, if_true]
  · intro rh h h0 hlt
    have hnle : ¬ (rh.members.length : Int) ≤ ema := by omega
    have hn0 : ¬ ema < 0 := by omega
    have hidx : ema.toNat < rh.members.length := by omega
    refine ⟨rh.members[ema.toNat], List.getElem?_eq_getElem hidx, ?_⟩
    simp only [BvvMarket.GetBandWidth, h, hnle, hn0, if_false, List.getElem?_eq_getElem hidx]
  · intro rh h hneg
    have hnle : ¬ (rh.members.length : Int) ≤ ema := by omega
    simp only [BvvMarket.GetBandWidth, h, hnle, hneg, if_false, if_true]

/-! ## Claims about the balances and the order of the bounds -/

/-- C18 as stated fails: with the available string `-5` the call succeeds, the market has
`Available = -5`, which is below zero, and (the price `20000` being positive) so is the
`Available` of the registered inverse. -/
theorem NewBvvMarket_accepts_negative_balance :
    sampleExt.NewFromString "-5" = .ok ⟨-5, 0⟩ ∧
    (NewBvvMarket sampleExt [] sampleHandler "BTC" "EUR" "-5" "0.1").err = none ∧
    (NewBvvMarket sampleExt [] sampleHandler "BTC" "EUR" "-5" "0.1").market.Available
      = ⟨-5, 0⟩ ∧
    (NewBvvMarket sampleExt [] sampleHandler "BTC" "EUR" "-5" "0.1").market.Available.LessThan
      Decimal.Zero = true ∧
    ((NewBvvMarket sampleExt [] sampleHandler "BTC" "EUR" "-5" "0.1").heap[1]?).map
      (fun inv => inv.Available.LessThan Decimal.Zero) = some true :=
  ⟨rfl, by decide, by decide, by decide, by decide⟩

/-- C18, amended: the balances of a market returned without error with its inverse are the
decimals the two balance strings parse to, whatever their sign, and the balances of the
inverse denote the price times these.  So `Available` and `InOrder` are non-negative
exactly when the parsed values are, and for a positive price the same holds for the
balances of the inverse. -/
theorem NewBvvMarket_balances_as_parsed {EMA : Type} (ext : Collaborators EMA)
    (heap : List (BvvMarket EMA)) (bh : BvvHandler)
    (symbol fiatSymbol available inOrder : String)
    (herr : (NewBvvMarket ext heap bh symbol fiatSymbol available inOrder).err = none)
    (q : Nat)
    (hq : (NewBvvMarket ext heap bh symbol fiatSymbol available inOrder).market.inverse
      = some q) :
    ∃ a o inv, ext.NewFromString available = .ok a ∧ ext.NewFromString inOrder = .ok o ∧
      (NewBvvMarket ext heap bh symbol fiatSymbol available inOrder).market.Available = a ∧
      (NewBvvMarket ext heap bh symbol fiatSymbol available inOrder).market.InOrder = o ∧
      (NewBvvMarket ext heap bh symbol fiatSymbol available inOrder).heap[q]? = some inv ∧
      inv.Available.toRat
        = (NewBvvMarket ext heap bh symbol fiatSymbol available inOrder).market.Price.toRat
          * a.toRat ∧
      inv.InOrder.toRat
        = (NewBvvMarket ext heap bh symbol fiatSymbol available inOrder).market.Price.toRat
          * o.toRat ∧
      (0 < (NewBvvMarket ext heap bh symbol fiatSymbol available inOrder).market.Price.toRat →
        (0 ≤ inv.Available.toRat ↔ 0 ≤ a.toRat) ∧ (0 ≤ inv.InOrder.toRat ↔ 0 ≤ o.toRat)) := by
  rcases NewBvvMarket_cases ext heap bh symbol fiatSymbol available inOrder with
    ⟨hne, _⟩ | ⟨_, hm, _, _, _⟩ | ⟨config, a, o, price, mk, hcfg, ha, ho, hr, hp, hz⟩
  · exact absurd herr hne
  · rw [hm] at hq
    simp [BvvMarket.zero] at hq
  · have hmk := attachRibbon_fields ext _ mk config hr
    have hAv : mk.Available = a := by rw [hmk]; rfl
    have hIo : mk.InOrder = o := by rw [hmk]; rfl
    obtain ⟨mn, mx, imn, imx, hres, _⟩ := NewBvvMarket_constructed ext heap bh symbol
      fiatSymbol available inOrder config a o price mk hcfg ha ho hr hp hz
    rw [hres] at hq ⊢
    simp only [] at hq ⊢
    cases hq
    refine ⟨a, o, _, ha, ho, hAv, hIo, heap_lookup_snd heap _ _, Decimal.toRat_Mul _ _,
      Decimal.toRat_Mul _ _, ?_⟩
    intro hpos
    simp only [Decimal.toRat_Mul]
    exact ⟨⟨fun h => nonneg_of_mul_nonneg_right h hpos, fun h => mul_nonneg (le_of_lt hpos) h⟩,
      ⟨fun h => nonneg_of_mul_nonneg_right h hpos, fun h => mul_nonneg (le_of_lt hpos) h⟩⟩

/-- C18 amended, at the balances `0.5` and `0.1` of the market `BTC-EUR`: the market holds
them as parsed, and the inverse holds `20000` times as much. -/
theorem NewBvvMarket_balances_as_parsed_witness :
    ∃ inv,
      (NewBvvMarket sampleExt [] sampleHandler "BTC" "EUR" "0.5" "0.1").market.Available
        = ⟨5, -1⟩ ∧
      (NewBvvMarket sampleExt [] sampleHandler "BTC" "EUR" "0.5" "0.1").market.InOrder
        = ⟨1, -1⟩ ∧
      (NewBvvMarket sampleExt [] sampleHandler "BTC" "EUR" "0.5" "0.1").heap[1]? = some inv ∧
      inv.Available.toRat = 10000 ∧ inv.InOrder.toRat = 2000 := by
  obtain ⟨a, o, inv, ha, ho, h1, h2, h3, h4, h5, _⟩ :=
    NewBvvMarket_balances_as_parsed sampleExt [] sampleHandler "BTC" "EUR" "0.5" "0.1"
      (by decide) 1 (by decide)
  have ha2 : a = ⟨5, -1⟩ := by
    have : sampleExt.NewFromString "0.5" = .ok ⟨5, -1⟩ := rfl
    rw [this] at ha; cases ha; rfl
  have ho2 : o = ⟨1, -1⟩ := by
    have : sampleExt.NewFromString "0.1" = .ok ⟨1, -1⟩ := rfl
    rw [this] at ho; cases ho; rfl
  have hprice : (NewBvvMarket sampleExt [] sampleHandler "BTC" "EUR" "0.5" "0.1").market.Price
      = ⟨20000, 0⟩ := by decide
  subst ha2 ho2
  refine ⟨inv, h1, h2, h3, ?_, ?_⟩
  · rw [h4, hprice]; simp only [Decimal.toRat]; norm_num
  · rw [h5, hprice]; simp only [Decimal.toRat]; norm_num

/-! ## Claims about the bandwidth percentages -/

/-- C19 as stated fails at its last part: for `Min = 1` and `Cur = Max = 10 ^ 17`, which
satisfy `0 < Min ≤ Cur ≤ Max`, the quotient `Min / Cur` rounds to zero at sixteen decimals
and `GetMinPercent` is `100`, which is not below `100`. -/
theorem GetMinPercent_reaches_hundred :
    (Decimal.Zero.LessThan (⟨1, 0⟩ : Decimal) = true ∧
      (⟨1, 17⟩ : Decimal).LessThan ⟨1, 0⟩ = false ∧
      (⟨1, 17⟩ : Decimal).LessThan ⟨1, 17⟩ = false) ∧
    (⟨⟨1, 0⟩, ⟨1, 17⟩, ⟨1, 17⟩⟩ : MABandwidth).GetMinPercent
      = Outcome.returns ⟨1000000000000000000, -16⟩ ∧
    (⟨1000000000000000000, -16⟩ : Decimal).Equal (Decimal.NewFromInt 100) = true ∧
    (⟨1000000000000000000, -16⟩ : Decimal).LessThan (Decimal.NewFromInt 100) = false := by
  decide

theorem GetMinPercent_returns (bw : MABandwidth) (h : bw.Cur.toRat ≠ 0) :
    bw.GetMinPercent
      = Outcome.returns ((Decimal.NewFromInt 100).Sub
          ((bw.Min.Div bw.Cur).Mul (Decimal.NewFromInt 100))) := by
  have hv := Decimal.value_ne_zero_of_toRat bw.Cur h
  simp only [MABandwidth.GetMinPercent, Decimal.DivOrPanic, hv, if_false]

theorem GetMaxPercent_returns (bw : MABandwidth) (h : bw.Max.toRat ≠ 0) :
    bw.GetMaxPercent
      = Outcome.returns ((Decimal.NewFromInt 100).Sub
          ((bw.Cur.Div bw.Max).Mul (Decimal.NewFromInt 100))) := by
  have hv := Decimal.value_ne_zero_of_toRat bw.Max h
  simp only [MABandwidth.GetMaxPercent, Decimal.DivOrPanic, hv, if_false]

theorem toRat_percent (q : Decimal) :
    ((Decimal.NewFromInt 100).Sub (q.Mul (Decimal.NewFromInt 100))).toRat
      = 100 - q.toRat * 100 := by
  rw [Decimal.toRat_Sub, Decimal.toRat_Mul, Decimal.toRat_NewFromInt]
  norm_num

/-- For `0 < x ≤ y` the library quotient `x / y` lies in `[0, 1]`, and above zero when the
exact quotient exceeds half a unit of the sixteenth decimal. -/
theorem Div_unit_interval (x y : Decimal) (hx : 0 < x.toRat) (hxy : x.toRat ≤ y.toRat) :
    0 ≤ (x.Div y).toRat ∧ (x.Div y).toRat ≤ 1 ∧
      (1 / (2 * 10 ^ 16) < x.toRat / y.toRat → 0 < (x.Div y).toRat) := by
  have hy : 0 < y.toRat := lt_of_lt_of_le hx hxy
  have hy0 : y.toRat ≠ 0 := ne_of_gt hy
  have hq0 : 0 ≤ x.toRat / y.toRat := le_of_lt (div_pos hx hy)
  have hq1 : x.toRat / y.toRat ≤ 1 := (div_le_one hy).mpr hxy
  refine ⟨?_, ?_, ?_⟩
  · have := Decimal.Div_ge_of_ge x y hy0 0 (by simpa using hq0)
    simpa using this
  · have := Decimal.Div_le_of_le x y hy0 (10 ^ 16) (by
      have e : (((10 : Int) ^ 16 : Int) : ℚ) / 10 ^ 16 = 1 := by norm_num
      rw [e]; exact hq1)
    have e : (((10 : Int) ^ 16 : Int) : ℚ) / 10 ^ 16 = 1 := by norm_num
    rw [e] at this; exact this
  · intro hbig
    have hc := (abs_le.mp (Decimal.Div_close x y hy0)).1
    linarith

/-- C19, amended: with `Cur ≠ 0`, `GetMinPercent` returns `100 - (Min / Cur) * 100`, and with
`Max ≠ 0`, `GetMaxPercent` returns `100 - (Cur / Max) * 100`, the quotient being the one of
the decimal library (within `5 * 10 ^ (-17)` of the exact quotient) and the product and the
difference exact; no order of `Min`, `Cur`, `Max` is needed for that.  When
`0 < Min ≤ Cur ≤ Max` both results lie in `[0, 100]`, and a result is below `100` when the
exact quotient exceeds `5 * 10 ^ (-17)`. -/
theorem bandwidth_percentages (bw : MABandwidth) :
    (bw.Cur.toRat ≠ 0 →
      ∃ d, bw.GetMinPercent = Outcome.returns d ∧
        d.toRat = 100 - (bw.Min.Div bw.Cur).toRat * 100 ∧
        |(bw.Min.Div bw.Cur).toRat - bw.Min.toRat / bw.Cur.toRat| ≤ 1 / (2 * 10 ^ 16)) ∧
    (bw.Max.toRat ≠ 0 →
      ∃ d, bw.GetMaxPercent = Outcome.returns d ∧
        d.toRat = 100 - (bw.Cur.Div bw.Max).toRat * 100 ∧
        |(bw.Cur.Div bw.Max).toRat - bw.Cur.toRat / bw.Max.toRat| ≤ 1 / (2 * 10 ^ 16)) ∧
    (0 < bw.Min.toRat → bw.Min.toRat ≤ bw.Cur.toRat → bw.Cur.toRat ≤ bw.Max.toRat →
      ∃ d1 d2, bw.GetMinPercent = Outcome.returns d1 ∧ bw.GetMaxPercent = Outcome.returns d2 ∧
        0 ≤ d1.toRat ∧ d1.toRat ≤ 100 ∧ 0 ≤ d2.toRat ∧ d2.toRat ≤ 100 ∧
        (1 / (2 * 10 ^ 16) < bw.Min.toRat / bw.Cur.toRat → d1.toRat < 100) ∧
        (1 / (2 * 10 ^ 16) < bw.Cur.toRat / bw.Max.toRat → d2.toRat < 100)) := by
  refine ⟨?_, ?_, ?_⟩
  · intro h
    exact ⟨_, GetMinPercent_returns bw h, toRat_percent _, Decimal.Div_close _ _ h⟩
  · intro h
    exact ⟨_, GetMaxPercent_returns bw h, toRat_percent _, Decimal.Div_close _ _ h⟩
  · intro hmin hmc hcm
    have hcur : 0 < bw.Cur.toRat := lt_of_lt_of_le hmin hmc
    have hmax : 0 < bw.Max.toRat := lt_of_lt_of_le hcur hcm
    obtain ⟨a1, a2, a3⟩ := Div_unit_interval bw.Min bw.Cur hmin hmc
    obtain ⟨b1, b2, b3⟩ := Div_unit_interval bw.Cur bw.Max hcur hcm
    refine ⟨_, _, GetMinPercent_returns bw (ne_of_gt hcur),
      GetMaxPercent_returns bw (ne_of_gt hmax), ?_, ?_, ?_, ?_, ?_, ?_⟩
    · rw [toRat_percent]; linarith
    · rw [toRat_percent]; linarith
    · rw [toRat_percent]; linarith
    · rw [toRat_percent]; linarith
    · intro h; rw [toRat_percent]; linarith [a3 h]
    · intro h; rw [toRat_percent]; linarith [b3 h]

/-- C19 amended, at `Min = 8`, `Cur = 10`, `Max = 16` (the results are `20` and `37.5`), and
at `Min = 2`, `Cur = 1`, where the result is `-100`. -/
theorem bandwidth_percentages_witness :
    (∃ d1 d2,
      (⟨⟨8, 0⟩, ⟨10, 0⟩, ⟨16, 0⟩⟩ : MABandwidth).GetMinPercent = Outcome.returns d1 ∧
      (⟨⟨8, 0⟩, ⟨10, 0⟩, ⟨16, 0⟩⟩ : MABandwidth).GetMaxPercent = Outcome.returns d2 ∧
      0 ≤ d1.toRat ∧ d1.toRat < 100 ∧ 0 ≤ d2.toRat ∧ d2.toRat < 100) ∧
    (∃ d, (⟨⟨2, 0⟩, ⟨1, 0⟩, ⟨1, 0⟩⟩ : MABandwidth).GetMinPercent = Outcome.returns d ∧
      d.toRat = -100) := by
  constructor
  · obtain ⟨d1, d2, h1, h2, h3, _, h5, _, h7, h8⟩ :=
      (bandwidth_percentages ⟨⟨8, 0⟩, ⟨10, 0⟩, ⟨16, 0⟩⟩).2.2
        (by simp [Decimal.toRat]) (by simp only [Decimal.toRat]; norm_num)
        (by simp only [Decimal.toRat]; norm_num)
    exact ⟨d1, d2, h1, h2, h3, h7 (by simp only [Decimal.toRat]; norm_num), h5,
      h8 (by simp only [Decimal.toRat]; norm_num)⟩
  · obtain ⟨d, h1, h2, _⟩ :=
      (bandwidth_percentages ⟨⟨2, 0⟩, ⟨1, 0⟩, ⟨1, 0⟩⟩).1 (by simp [Decimal.toRat])
    refine ⟨d, h1, ?_⟩
    rw [h2]
    have : ((⟨2, 0⟩ : Decimal).Div ⟨1, 0⟩) = ⟨20000000000000000, -16⟩ := by decide
    rw [this]; simp only [Decimal.toRat]; norm_num

theorem parseMax_zero_or_ge {EMA : Type} (ext : Collaborators EMA) (config : bvvMarketConfig)
    (decMin : Decimal) :
    (parseMax ext config decMin).toRat = 0 ∨
      decMin.toRat ≤ (parseMax ext config decMin).toRat := by
  unfold parseMax
  split
  · left; exact Decimal.toRat_Zero
  · rename_i d _
    split
    · left; exact Decimal.toRat_Zero
    · rename_i hlt
      right
      exact not_lt.mp ((Decimal.LessThan_iff d decMin).not.mp hlt)

/-- The inverse price of a positive price is not negative. -/
theorem Div_one_nonneg (price : Decimal) (hpos : 0 < price.toRat) :
    0 ≤ ((Decimal.NewFromInt32 1).Div price).toRat := by
  have h := Decimal.Div_ge_of_ge (Decimal.NewFromInt32 1) price (ne_of_gt hpos) 0 (by
    rw [Decimal.toRat_NewFromInt32]
    simp only [Int.cast_zero, zero_div, Int.cast_one]
    exact le_of_lt (div_pos one_pos hpos))
  simpa using h

/-- The order of the bounds, away from the return of line 75: a call of `NewBvvMarket` that returns without error, the price-table entry being
positive, leaves the bounds ordered and non-negative on both sides:
`0 ≤ market.Min ≤ market.Max`, and `0 ≤ inverse.Min ≤ inverse.Max` for the inverse the
market points to. -/
theorem NewBvvMarket_bounds_ordered {EMA : Type} (ext : Collaborators EMA)
    (heap : List (BvvMarket EMA)) (bh : BvvHandler)
    (symbol fiatSymbol available inOrder : String)
    (herr : (NewBvvMarket ext heap bh symbol fiatSymbol available inOrder).err = none)
    (hpos : ∀ price, bh.prices (symbol ++ "-" ++ fiatSymbol) = some price →
      0 < price.toRat) :
    0 ≤ (NewBvvMarket ext heap bh symbol fiatSymbol available inOrder).market.Min.toRat ∧
    (NewBvvMarket ext heap bh symbol fiatSymbol available inOrder).market.Min.toRat
      ≤ (NewBvvMarket ext heap bh symbol fiatSymbol available inOrder).market.Max.toRat ∧
    ∀ q, (NewBvvMarket ext heap bh symbol fiatSymbol available inOrder).market.inverse
        = some q →
      ∃ inv, (NewBvvMarket ext heap bh symbol fiatSymbol available inOrder).heap[q]?
          = some inv ∧ 0 ≤ inv.Min.toRat ∧ inv.Min.toRat ≤ inv.Max.toRat := by
  rcases NewBvvMarket_cases ext heap bh symbol fiatSymbol available inOrder with
    ⟨hne, _⟩ | ⟨_, hm, _, _, _⟩ | ⟨config, a, o, price, mk, hcfg, ha, ho, hr, hp, hz⟩
  · exact absurd herr hne
  · rw [hm]
    refine ⟨by simp [BvvMarket.zero, Decimal.toRat], by simp [BvvMarket.zero, Decimal.toRat],
      ?_⟩
    intro q hq
    simp [BvvMarket.zero] at hq
  · obtain ⟨mn, mx, imn, imx, hres, hb⟩ := NewBvvMarket_constructed ext heap bh symbol
      fiatSymbol available inOrder config a o price mk hcfg ha ho hr hp hz
    rw [hres]
    simp only []
    have hinvp := Div_one_nonneg price (hpos price hp)
    have hminnn := parseMin_nonneg ext config
    rcases hb with ⟨_, h1, h2, h3, h4⟩ | ⟨hen, h3, h4, h1, h2⟩
    · subst h1 h2 h3 h4
      refine ⟨by rw [Decimal.toRat_Zero], le_refl _, ?_⟩
      intro q hq
      cases hq
      exact ⟨_, heap_lookup_snd heap _ _, by rw [Decimal.toRat_Zero], le_refl _⟩
    · have hmaxne : (parseMax ext config (parseMin ext config)).toRat ≠ 0 := by
        intro h0
        rw [Bool.or_eq_false_iff] at hen
        have := (Decimal.Equal_Zero_iff _).mpr h0
        rw [hen.2] at this
        cases this
      have hle : (parseMin ext config).toRat
          ≤ (parseMax ext config (parseMin ext config)).toRat := by
        rcases parseMax_zero_or_ge ext config (parseMin ext config) with h | h
        · exact absurd h hmaxne
        · exact h
      subst h1 h2 h3 h4
      refine ⟨?_, ?_, ?_⟩
      · rw [Decimal.toRat_Mul]; exact mul_nonneg hinvp hminnn
      · rw [Decimal.toRat_Mul, Decimal.toRat_Mul]
        exact mul_le_mul_of_nonneg_left hle hinvp
      · intro q hq
        cases hq
        exact ⟨_, heap_lookup_snd heap _ _, hminnn, hle⟩

/-- The order of the bounds, at the market `BTC-EUR` with the bounds `100` and `1000` and the price `20000`:
the call succeeds and the bounds are ordered on both sides. -/
theorem NewBvvMarket_bounds_ordered_witness :
    0 ≤ (NewBvvMarket sampleExt [] sampleHandler "BTC" "EUR" "0.5" "0.1").market.Min.toRat ∧
    (NewBvvMarket sampleExt [] sampleHandler "BTC" "EUR" "0.5" "0.1").market.Min.toRat
      ≤ (NewBvvMarket sampleExt [] sampleHandler "BTC" "EUR" "0.5" "0.1").market.Max.toRat ∧
    ∃ inv, (NewBvvMarket sampleExt [] sampleHandler "BTC" "EUR" "0.5" "0.1").heap[1]?
        = some inv ∧ 0 ≤ inv.Min.toRat ∧ inv.Min.toRat ≤ inv.Max.toRat := by
  obtain ⟨h1, h2, h3⟩ :=
    NewBvvMarket_bounds_ordered sampleExt [] sampleHandler "BTC" "EUR" "0.5" "0.1"
      (by decide)
      (by
        intro price hp
        have : sampleHandler.prices ("BTC" ++ "-" ++ "EUR") = some ⟨20000, 0⟩ := by decide
        rw [this] at hp
        cases hp
        simp [Decimal.toRat])
  exact ⟨h1, h2, h3 1 (by decide)⟩

/-! ## The claims about successful calls, at the return of line 75 -/

/-- C5, the code at a symbol whose lower bound is configured as `-5` and whose ribbon
handler cannot be built (`ADA`, balances `0.5` and `0.1`, price `0.5`): the call returns
without error, but what it returns is the empty market, which has no inverse, and nothing
was allocated or registered; there is no inverse whose `Min` and `Max` could be zero. -/
theorem bounds_disabled_claim_at_line_75 :
    adaHandler.config.Markets "ADA" = some ⟨"-5", "1000", ⟨true, []⟩⟩ ∧
    sampleExt.NewFromString "-5" = .ok ⟨-5, 0⟩ ∧
    adaHandler.prices "ADA-EUR" = some ⟨5, -1⟩ ∧
    (NewBvvMarket sampleExt [] adaHandler "ADA" "EUR" "0.5" "0.1").err = none ∧
    (NewBvvMarket sampleExt [] adaHandler "ADA" "EUR" "0.5" "0.1").market = BvvMarket.zero ∧
    (NewBvvMarket sampleExt [] adaHandler "ADA" "EUR" "0.5" "0.1").market.inverse = none ∧
    (NewBvvMarket sampleExt [] adaHandler "ADA" "EUR" "0.5" "0.1").heap = [] ∧
    (NewBvvMarket sampleExt [] adaHandler "ADA" "EUR" "0.5" "0.1").bh.markets "ADA-EUR"
      = none ∧
    (NewBvvMarket sampleExt [] adaHandler "ADA" "EUR" "0.5" "0.1").bh.markets "EUR-ADA"
      = none :=
  ⟨by decide, rfl, by decide, by decide, by decide, by decide, by decide, by decide,
    by decide⟩

/-- C6, the code at a symbol with the bounds `100` and `1000` whose ribbon handler cannot
be built (`XRP`, balances `0.5` and `0.1`, price `0.5`): the call returns without error,
but the returned market has `Min` and `Max` zero instead of the projections of `100` and
`1000`, and it has no inverse that could store `100` and `1000`. -/
theorem bounds_projected_claim_at_line_75 :
    sampleHandler.config.Markets "XRP" = some ⟨"100", "1000", ⟨true, []⟩⟩ ∧
    sampleExt.NewFromString "100" = .ok ⟨100, 0⟩ ∧
    sampleExt.NewFromString "1000" = .ok ⟨1000, 0⟩ ∧
    sampleHandler.prices "XRP-EUR" = some ⟨5, -1⟩ ∧
    (NewBvvMarket sampleExt [] sampleHandler "XRP" "EUR" "0.5" "0.1").err = none ∧
    (NewBvvMarket sampleExt [] sampleHandler "XRP" "EUR" "0.5" "0.1").market.Min = ⟨0, 0⟩ ∧
    (NewBvvMarket sampleExt [] sampleHandler "XRP" "EUR" "0.5" "0.1").market.Max = ⟨0, 0⟩ ∧
    (NewBvvMarket sampleExt [] sampleHandler "XRP" "EUR" "0.5" "0.1").market.inverse = none ∧
    (NewBvvMarket sampleExt [] sampleHandler "XRP" "EUR" "0.5" "0.1").heap = [] :=
  ⟨by decide, rfl, rfl, by decide, by decide, by decide, by decide, by decide, by decide⟩

/-- C13, the code at a symbol whose ribbon handler cannot be built (`XRP`): the call
returns without error a market named `-`, and the registry has no entry under that name,
nor under `XRP-EUR` or `EUR-XRP`; there is no registered market whose inverse could point
back to it. -/
theorem back_link_claim_at_line_75 :
    (NewBvvMarket sampleExt [] sampleHandler "XRP" "EUR" "0.5" "0.1").err = none ∧
    (NewBvvMarket sampleExt [] sampleHandler "XRP" "EUR" "0.5" "0.1").market.Name = "-" ∧
    (NewBvvMarket sampleExt [] sampleHandler "XRP" "EUR" "0.5" "0.1").bh.markets
      (NewBvvMarket sampleExt [] sampleHandler "XRP" "EUR" "0.5" "0.1").market.Name = none ∧
    (NewBvvMarket sampleExt [] sampleHandler "XRP" "EUR" "0.5" "0.1").bh.markets "XRP-EUR"
      = none ∧
    (NewBvvMarket sampleExt [] sampleHandler "XRP" "EUR" "0.5" "0.1").bh.markets "EUR-XRP"
      = none ∧
    (NewBvvMarket sampleExt [] sampleHandler "XRP" "EUR" "0.5" "0.1").market.inverse
      = none := by
  decide

/-- C20, the code at a symbol with the positive price `0.5` whose ribbon handler cannot be
built (`XRP`): the call returns without error a market without inverse, and nothing was
allocated; there is no inverse whose bounds could be ordered. -/
theorem bounds_ordered_claim_at_line_75 :
    sampleHandler.prices "XRP-EUR" = some ⟨5, -1⟩ ∧
    Decimal.Zero.LessThan ⟨5, -1⟩ = true ∧
    (NewBvvMarket sampleExt [] sampleHandler "XRP" "EUR" "0.5" "0.1").err = none ∧
    (NewBvvMarket sampleExt [] sampleHandler "XRP" "EUR" "0.5" "0.1").market.Min = ⟨0, 0⟩ ∧
    (NewBvvMarket sampleExt [] sampleHandler "XRP" "EUR" "0.5" "0.1").market.Max = ⟨0, 0⟩ ∧
    (NewBvvMarket sampleExt [] sampleHandler "XRP" "EUR" "0.5" "0.1").market.inverse = none ∧
    (NewBvvMarket sampleExt [] sampleHandler "XRP" "EUR" "0.5" "0.1").heap = [] := by
  decide
